import Mathlib

/-!
Shallow embedding of the SwissTable-style hash map of `chibilibs/hash.h`
(uint64 keys, generic values, 16-byte metadata groups, linear group probing,
tombstone deletion, 75% load-factor growth).

Machine integers are modelled as `Nat` with explicit reduction modulo `2 ^ 64`
where the C code works in `uint64_t`.  The three potentially non-terminating
probe loops (`hash__get_idx`, `hash__get_freetombidx`, and the rehash placement
loop) are modelled with explicit fuel; a `none` result means the C loop never
exits.  Fuel equal to the number of 16-byte groups (respectively, the number of
slots for the rehash loop) is exact: each loop advances cyclically through the
groups (slots) and revisits its starting point after that many steps with an
unchanged table, so a loop that has not exited within one full cycle never
exits.  Allocation is assumed to succeed.
-/

namespace Chibi

/-- 2^64, the modulus of `uint64_t` arithmetic. -/
def U64 : Nat := 2 ^ 64

/-- HASH__START_CAPACITY from hash.h. -/
def HASH__START_CAPACITY : Nat := 16

/-- HASH__FREE metadata byte. -/
def HASH__FREE : Nat := 0x00

/-- HASH__TOMB metadata byte. -/
def HASH__TOMB : Nat := 0x01

/-- Macro `hash_is_full`: `((b) & 0x80) == 0x80`. -/
def hash_is_full (b : Nat) : Bool := b &&& 0x80 == 0x80

/-- Macro `hash_is_free`: `((b) == 0)`. -/
def hash_is_free (b : Nat) : Bool := b == 0

/-- Macro `hash__hash57`: `(h) & 0x01FFFFFFFFFFFFFF` (low 57 bits). -/
def hash__hash57 (h : Nat) : Nat := h &&& 0x01FFFFFFFFFFFFFF

/-- Macro `hash__hash7`: `((h) >> 57) & 0x7F` (high 7 bits). -/
def hash__hash7 (h : Nat) : Nat := (h >>> 57) &&& 0x7F

/-- The hash mixer `hash__hash` of hash.h, seeded; all arithmetic is
`uint64_t`, so multiplications are reduced mod `2 ^ 64`.  The seed and the
argument are `uint64_t` values, hence the initial reductions. -/
def hash__hash (seed val : Nat) : Nat :=
  let x := (val % U64) ^^^ (seed % U64)
  let x := x ^^^ (x >>> 33)
  let x := (x * 0xff51afd7ed558ccd) % U64
  let x := x ^^^ (x >>> 33)
  let x := (x * 0xc4ceb9fe1a85ec53) % U64
  x ^^^ (x >>> 33)

/-- The default seed `hash__seed = 0x12345678ABCDEF00ULL`. -/
def hash__seed : Nat := 0x12345678ABCDEF00

/-- One table image.  `meta`, `keys`, `vals` are the three arrays of the
memory image (each of length `capacity`); `size` and `val_size` are the
`hash__info_t` fields.  The `capacity` field of `hash__info_t` always equals
the length of the metadata array in every image the code builds, so it is
modelled as `capacity t = t.meta.length`.  The C code leaves the `keys` and
`vals` arrays uninitialized on allocation and never reads a slot it has not
written (key/value reads are guarded by Full metadata bytes); the model fills
them with `0` / `default`. -/
structure HTable (V : Type) where
  meta : List Nat
  keys : List Nat
  vals : List V
  size : Nat
  val_size : Nat
deriving Repr, DecidableEq

/-- Macro `hash_capacity` for a non-null map: `info->capacity`. -/
def capacity {V : Type} (t : HTable V) : Nat := t.meta.length

/-- Macro `hash_size` on a possibly-null handle: `((map) ? info->size : 0)`. -/
def hash_sizeH {V : Type} : Option (HTable V) → Nat
  | none => 0
  | some t => t.size

/-- Macro `hash_capacity` on a possibly-null handle:
`((map) ? info->capacity : 0)`. -/
def hash_capacityH {V : Type} : Option (HTable V) → Nat
  | none => 0
  | some t => capacity t

/-- Find the smallest `j` with `j0 ≤ j < j0 + fuel` satisfying `p`; this is
`_BitScanForward` over the 16-bit movemask bitmap: scanning the set bits of
the bitmap lowest-first is the same as scanning the offsets `0..15` in
increasing order and testing the byte predicate. -/
def bitScan (p : Nat → Bool) : Nat → Nat → Option Nat
  | 0, _ => none
  | fuel + 1, j => if p j then some j else bitScan p fuel (j + 1)

/-- The match step of `hash__get_idx` on the group whose metadata starts at
byte index `i`: `_mm_cmpeq_epi8` against the broadcast `mask` gives the bitmap
of offsets whose metadata byte equals `mask`; the `_BitScanForward` loop then
returns the lowest such offset whose key equals `key`. -/
def grpMatch (meta keys : List Nat) (i key mask : Nat) : Option Nat :=
  bitScan (fun j => meta.getD (i + j) 0 == mask && keys.getD (i + j) 0 == key) 16 0

/-- The termination step of `hash__get_idx`: the movemask against the zero
vector is non-zero iff some metadata byte of the group is Free. -/
def grpHasFree (meta : List Nat) (i : Nat) : Bool :=
  (bitScan (fun j => meta.getD (i + j) 0 == 0) 16 0).isSome

/-- The group scan of `hash__get_freetombidx`: bitmap of bytes with the high
bit clear (Free or Tombstone), lowest offset first. -/
def grpFreeTomb (meta : List Nat) (i : Nat) : Option Nat :=
  bitScan (fun j => meta.getD (i + j) 0 &&& 0x80 == 0) 16 0

/-- The `for(;;)` loop of `hash__get_idx`.  `some (some idx)` models
`return 1` with `*idx` set, `some none` models `return -1`, `none` models
fuel exhaustion (the C loop runs forever).  The step
`i = (i + 16) & (m - 1)` is translated literally. -/
def getIdxAux (meta keys : List Nat) (m key mask : Nat) :
    Nat → Nat → Option (Option Nat)
  | 0, _ => none
  | fuel + 1, i =>
    match grpMatch meta keys i key mask with
    | some j => some (some (i + j))
    | none =>
      if grpHasFree meta i then some none
      else getIdxAux meta keys m key mask fuel ((i + 16) &&& (m - 1))

/-- `hash__get_idx` for a non-null map: computes the hash, the start group
`hash57(h) & (m/16 - 1)` and the match byte `hash7(h) | 0x80`, then runs the
probe loop.  Fuel `m / 16` (the group count) is exact, see the header
comment. -/
def hash__get_idx {V : Type} (seed : Nat) (t : HTable V) (key : Nat) :
    Option (Option Nat) :=
  let h := hash__hash seed key
  let m := capacity t
  let grpidx := hash__hash57 h &&& (m / 16 - 1)
  let mask := hash__hash7 h ||| 0x80
  getIdxAux t.meta t.keys m key mask (m / 16) (grpidx * 16)

/-- The `for(;;)` loop of `hash__get_freetombidx`: first group containing a
byte with the high bit clear, lowest offset first. -/
def getFreeTombAux (meta : List Nat) (m : Nat) : Nat → Nat → Option Nat
  | 0, _ => none
  | fuel + 1, i =>
    match grpFreeTomb meta i with
    | some j => some (i + j)
    | none => getFreeTombAux meta m fuel ((i + 16) &&& (m - 1))

/-- `hash__get_freetombidx` for a non-null map. -/
def hash__get_freetombidx {V : Type} (seed : Nat) (t : HTable V) (key : Nat) :
    Option Nat :=
  let h := hash__hash seed key
  let m := capacity t
  let grpidx := hash__hash57 h &&& (m / 16 - 1)
  getFreeTombAux t.meta m (m / 16) (grpidx * 16)

/-- `hash_get` on a non-null map: returns (the value behind) the pointer
`map + val_size * idx` on a hit, `NULL` on a miss; `none` models a probe loop
that never exits.  The key parameter is a `uint64_t`. -/
def hash_getT {V : Type} [Inhabited V] (seed : Nat) (t : HTable V) (key : Nat) :
    Option (Option V) :=
  match hash__get_idx seed t (key % U64) with
  | none => none
  | some (some idx) => some (some (t.vals.getD idx default))
  | some none => some none

/-- `hash_del` on a non-null map: on a hit writes `HASH__TOMB` to the matched
metadata byte, decrements `size` and returns `true`; on a miss returns
`false`.  The `free_val` flag calls `free` on the heap block the value points
to; it does not modify the table image, so it has no effect on the model
state.  `none` models a probe loop that never exits. -/
def hash_delT {V : Type} (seed : Nat) (t : HTable V) (key : Nat)
    (free_val : Bool) : Option (Bool × HTable V) :=
  match hash__get_idx seed t (key % U64) with
  | none => none
  | some (some idx) =>
      some (true, { t with meta := t.meta.set idx HASH__TOMB, size := t.size - 1 })
  | some none => some (false, t)

/-- `hash__init`: fresh image at `HASH__START_CAPACITY` with all metadata
bytes Free, `size = 0`, `val_size = sizeof(*(map))` (passed as `vsz`).
Allocation is assumed to succeed. -/
def hash__init (V : Type) [Inhabited V] (vsz : Nat) : HTable V :=
  { meta := List.replicate HASH__START_CAPACITY 0
    keys := List.replicate HASH__START_CAPACITY 0
    vals := List.replicate HASH__START_CAPACITY default
    size := 0
    val_size := vsz }

/-- The `while(!hash_is_free(nbase[idx])) idx = (idx + 1) & (capacity - 1)`
loop of `hash__rehash`, fueled. -/
def rehashFindFree (meta : List Nat) (m : Nat) : Nat → Nat → Option Nat
  | 0, _ => none
  | fuel + 1, i =>
    if hash_is_free (meta.getD i 0) then some i
    else rehashFindFree meta m fuel ((i + 1) &&& (m - 1))

/-- One placement of `hash__rehash`: rehash the stored key, start at the new
group `hash57(h) & (ncap/16 - 1)` times 16, linearly probe for the first Free
slot, and copy the metadata byte, key, and value there.  Fuel `capacity nt`
is exact (the loop steps through all slots cyclically). -/
def rehashInsert {V : Type} (seed : Nat) (nt : HTable V) (mbyte k : Nat)
    (v : V) : Option (HTable V) :=
  let h := hash__hash seed k
  let ncap := capacity nt
  let idx0 := (hash__hash57 h &&& (ncap / 16 - 1)) * 16
  match rehashFindFree nt.meta ncap ncap idx0 with
  | none => none
  | some idx =>
      some { nt with
              meta := nt.meta.set idx mbyte
              keys := nt.keys.set idx k
              vals := nt.vals.set idx v }

/-- The `for` loop of `hash__rehash` over the old indices. -/
def rehashAux {V : Type} [Inhabited V] (seed : Nat) (t : HTable V) :
    List Nat → HTable V → Option (HTable V)
  | [], nt => some nt
  | i :: is, nt =>
    if hash_is_full (t.meta.getD i 0) then
      match rehashInsert seed nt (t.meta.getD i 0) (t.keys.getD i 0)
          (t.vals.getD i default) with
      | none => none
      | some nt' => rehashAux seed t is nt'
    else rehashAux seed t is nt

/-- `hash__rehash(map, nmap)`: every Full slot of the old image is placed
into the new image. -/
def hash__rehash {V : Type} [Inhabited V] (seed : Nat) (t nt : HTable V) :
    Option (HTable V) :=
  rehashAux seed t (List.range (capacity t)) nt

/-- `hash__resize(map, ncapacity)`: allocate a new image of capacity
`ncapacity`, memset its metadata to `HASH__FREE`, copy `size` and `val_size`,
and rehash the old image into it.  Allocation is assumed to succeed. -/
def hash__resize {V : Type} [Inhabited V] (seed : Nat) (t : HTable V)
    (ncap : Nat) : Option (HTable V) :=
  hash__rehash seed t
    { meta := List.replicate ncap 0
      keys := List.replicate ncap 0
      vals := List.replicate ncap default
      size := t.size
      val_size := t.val_size }

/-- The tail of `hash_put`:
`if (hash_size(map) >= (hash_capacity(map)/4)*3) hash__resize(map, hash_capacity(map)*2)`. -/
def checkGrow {V : Type} [Inhabited V] (seed : Nat) (t : HTable V) :
    Option (HTable V) :=
  if (capacity t / 4) * 3 ≤ t.size then hash__resize seed t (capacity t * 2)
  else some t

/-- `hash_put` on a non-null map.  `uint64_t k = (key)` reduces the key mod
`2 ^ 64`.  On a probe hit the value is overwritten; on a miss the first
Free-or-Tombstone slot receives `mask`/key/value and `size` is incremented.
In both cases the load factor is then checked and the map possibly doubled.
`none` models a probe loop that never exits. -/
def hash_putT {V : Type} [Inhabited V] (seed : Nat) (t : HTable V) (key : Nat)
    (v : V) : Option (HTable V) :=
  let k := key % U64
  let h := hash__hash seed k
  let mask := hash__hash7 h ||| 0x80
  match hash__get_idx seed t k with
  | none => none
  | some (some idx) => checkGrow seed { t with vals := t.vals.set idx v }
  | some none =>
    match hash__get_freetombidx seed t k with
    | none => none
    | some idx =>
        checkGrow seed
          { t with
              meta := t.meta.set idx mask
              keys := t.keys.set idx k
              vals := t.vals.set idx v
              size := t.size + 1 }

/-- `hash_put` on a possibly-null handle: a null handle is first initialized
by `hash__init`. -/
def hash_put {V : Type} [Inhabited V] (seed vsz : Nat)
    (map : Option (HTable V)) (key : Nat) (v : V) : Option (HTable V) :=
  hash_putT seed ((map.getD (hash__init V vsz))) key v

/-- The `while (true_cap < cap) true_cap <<= 1` loop of `hash_reserve`;
`true_cap` is a `size_t`, so the shift wraps mod `2 ^ 64`.  Fueled:
`some tc` models the loop exiting with `true_cap = tc`, `none` models fuel
exhaustion.  For `cap ≤ 2 ^ 63` fuel `cap` is ample (`true_cap` doubles
each step); for `2 ^ 63 < cap < 2 ^ 64` the C loop shifts `true_cap` past
`2 ^ 63` to 0 and never exits, and the model returns `none` for every
fuel (`trueCapLoop_diverge`). -/
def trueCapLoop (cap : Nat) : Nat → Nat → Option Nat
  | 0, _ => none
  | fuel + 1, tc =>
    if tc < cap then trueCapLoop cap fuel (tc * 2 % U64) else some tc

/-- `hash_reserve(map, capacity)`: a null handle is first initialized;
`size_t cap = (capacity)` truncates the request mod `2 ^ 64`; then if the
request exceeds the current capacity, the map is resized to the computed
power of two.  `none` models a doubling loop that never exits. -/
def hash_reserve {V : Type} [Inhabited V] (seed vsz : Nat)
    (map : Option (HTable V)) (cap : Nat) : Option (HTable V) :=
  let t := map.getD (hash__init V vsz)
  let c := cap % U64
  if capacity t < c then
    match trueCapLoop c c 1 with
    | none => none
    | some tc => hash__resize seed t tc
  else some t

/-!  Pointer arithmetic of the access macros, for the null-handle behavior of
`hash_get`, `hash_del` and `hash_free`.  Addresses are integers;
`sizeof(hash__info_t) = 3 * sizeof(size_t) = 24` on the 64-bit targets the
library supports. -/

/-- Address computed by `hash__get_info(map)`, i.e. `(hash__info_t *)(map) - 1`,
for a handle at address `a`. -/
def hash__get_info_addr (a : Int) : Int := a - 24

/-- Address computed by `hash__get_keys(map)`:
`(uint64_t *)(hash__get_info(map)) - hash_capacity(map)`.  `cap` is
`hash_capacity(map)`, which is `0` for a null handle. -/
def hash__get_keys_addr (a : Int) (cap : Nat) : Int :=
  hash__get_info_addr a - 8 * cap

/-- Address computed by `hash__get_meta(map)` (and `hash__get_base(map)`):
`(uint8_t *)(hash__get_keys(map)) - hash_capacity(map)`. -/
def hash__get_base_addr (a : Int) (cap : Nat) : Int :=
  hash__get_keys_addr a cap - cap

/-- The pointer `hash_free(map)` passes to `_aligned_free`, as a function of
the handle address: `hash__get_base(map)`.  `_aligned_free` is a no-op
exactly on a null (zero) pointer. -/
def hash_free_arg (a : Int) (cap : Nat) : Int := hash__get_base_addr a cap

/-!  Operation sequences.  A state is a possibly-null handle; `step` runs one
public operation.  The outer `Option` is `none` when the operation does not
complete normally: a probe loop that never exits, or `hash_del` applied to a
null handle (its first statement `hash__get_info(map)->val_size` reads
through the invalid pointer computed from null). -/

/-- One public mutating operation. -/
inductive Op (V : Type) where
  | put (key : Nat) (v : V)
  | del (key : Nat) (free_val : Bool)
  | reserve (n : Nat)
deriving Repr, DecidableEq

/-- Run one operation on a possibly-null handle. -/
def step {V : Type} [Inhabited V] (seed vsz : Nat) (s : Option (HTable V)) :
    Op V → Option (Option (HTable V))
  | .put k v => (hash_put seed vsz s k v).map some
  | .del k fv =>
    match s with
    | none => none
    | some t => (hash_delT seed t k fv).map (fun r => some r.2)
  | .reserve n => (hash_reserve seed vsz s n).map some

/-- Run a sequence of operations starting from a given state. -/
def runFrom {V : Type} [Inhabited V] (seed vsz : Nat)
    (s : Option (HTable V)) : List (Op V) → Option (Option (HTable V))
  | [] => some s
  | op :: ops =>
    match step seed vsz s op with
    | none => none
    | some s' => runFrom seed vsz s' ops

/-- Run a sequence of operations starting from a null handle. -/
def run {V : Type} [Inhabited V] (seed vsz : Nat) (ops : List (Op V)) :
    Option (Option (HTable V)) :=
  runFrom seed vsz none ops

/-!  The specification-side model: an association list recording, most recent
first, the successfully inserted pairs, with deleted keys erased. -/

/-- Effect of one operation on the association-list model.  Keys are recorded
reduced mod `2 ^ 64`, as the `uint64_t` interface does. -/
def specStep {V : Type} (sm : List (Nat × V)) : Op V → List (Nat × V)
  | .put k v => (k % U64, v) :: sm
  | .del k _ => sm.filter (fun p => !(p.1 == k % U64))
  | .reserve _ => sm

/-- The association-list model of a whole operation sequence. -/
def specRun {V : Type} (ops : List (Op V)) : List (Nat × V) :=
  ops.foldl specStep []

/-- Most recent value written for a key (and not deleted since), if any. -/
def specLookup {V : Type} (sm : List (Nat × V)) (key : Nat) : Option V :=
  (sm.find? (fun p => p.1 == key % U64)).map (fun p => p.2)

/-!  Observables and invariants. -/

/-- Number of Full metadata bytes. -/
def countFull (meta : List Nat) : Nat := meta.countP (fun b => hash_is_full b)

/-- Number of Tombstone metadata bytes. -/
def countTomb (meta : List Nat) : Nat := meta.countP (fun b => b == HASH__TOMB)

/-- Whether some metadata byte is Free. -/
def hasFree {V : Type} (t : HTable V) : Bool := t.meta.any (fun b => b == 0)

/-- The pair `(k, v)` is stored in a Full slot of `t`. -/
def mapsTo {V : Type} [Inhabited V] (t : HTable V) (k : Nat) (v : V) : Prop :=
  ∃ i, i < capacity t ∧ hash_is_full (t.meta.getD i 0) ∧
    t.keys.getD i 0 = k ∧ t.vals.getD i default = v

/-- Home group of a key: `hash57(hash(key)) mod (m/16)`; equals the start
group `hash57 & (m/16 - 1)` computed by the code whenever `m/16` is a power
of two. -/
def homeGroup (seed m k : Nat) : Nat := hash__hash57 (hash__hash seed k) % (m / 16)

/-- Number of slots the probe sequence starting at slot `16 * g0` passes
before reaching slot `i` (both below `m`). -/
def probeDist (m g0 i : Nat) : Nat := (i + m - 16 * g0) % m

/-- Every Full slot lies on the probe sequence of its own key: no slot
strictly between the home position of `keys[i]` and `i` (in probe order) is
Free, so the Probe Engine reaches slot `i` before encountering a Free byte. -/
def ProbeOk {V : Type} (seed : Nat) (t : HTable V) : Prop :=
  ∀ i, i < capacity t → hash_is_full (t.meta.getD i 0) →
    ∀ d, d < probeDist (capacity t) (homeGroup seed (capacity t) (t.keys.getD i 0)) i →
      t.meta.getD ((16 * homeGroup seed (capacity t) (t.keys.getD i 0) + d) % capacity t) 0 ≠ 0

/-!  Concrete operation sequences used by the scenario claims.  All use the
default seed and value type `Nat` (with `val_size = 8`). -/

/-- Keys whose start group at capacity 32 is group 0 (computed from
`hash__hash`): the first sixteen naturals with `hash57(hash(k)) & 1 = 0`. -/
def g0keys : List Nat := [0, 3, 4, 7, 10, 12, 16, 21, 22, 26, 27, 29, 30, 31, 33, 34]

/-- The first seven naturals whose start group at capacity 32 is group 1. -/
def g1keysA : List Nat := [1, 2, 5, 6, 8, 9, 11]

/-- Nine group-0 keys that get deleted in the starvation scenario. -/
def g0del : List Nat := [0, 3, 4, 7, 10, 12, 16, 21, 22]

/-- Nine further group-1 keys inserted after the deletions. -/
def g1keysB : List Nat := [13, 14, 15, 17, 18, 19, 20, 23, 24]

/-- A sequence of public operations that drives the table into a state with
no Free metadata byte while `size = 23 ≤ 24 = (capacity/4) * 3`: reserve
capacity 32, fill group 0 completely and seven slots of group 1, then nine
times delete a group-0 key (leaving a Tombstone) and insert a fresh group-1
key (consuming a Free slot of group 1). -/
def badOps : List (Op Nat) :=
  Op.reserve 32 ::
    (g0keys.map (fun k => Op.put k k) ++
      g1keysA.map (fun k => Op.put k k) ++
      (List.zip g0del g1keysB).flatMap
        (fun p => [Op.del p.1 false, Op.put p.2 p.2]))

/-- The table reached by `badOps` (total by construction; the default value
is irrelevant). -/
def badTable : HTable Nat := ((run hash__seed 8 badOps).getD none).getD (hash__init Nat 8)

/-- The table obtained from `badTable` by deleting the (present) key 1. -/
def badDel : HTable Nat :=
  ((hash_delT hash__seed badTable 1 false).getD (false, badTable)).2

/-- Scenario 2 of the spec: insert keys 0..11 with value `key * 10`. -/
def ops12 : List (Op Nat) := (List.range 12).map (fun k => Op.put k (k * 10))

/-- The table reached by `ops12`. -/
def table12 : HTable Nat := ((run hash__seed 8 ops12).getD none).getD (hash__init Nat 8)

/-- The first eleven insertions of scenario 2, used to witness the growth
step of `hash_put`. -/
def ops11 : List (Op Nat) := (List.range 11).map (fun k => Op.put k (k * 10))

/-- The table reached by `ops11`. -/
def table11 : HTable Nat := ((run hash__seed 8 ops11).getD none).getD (hash__init Nat 8)

/-- Full well-formedness of a reachable table image. -/
structure WF {V : Type} (seed : Nat) (t : HTable V) : Prop where
  klen : t.keys.length = capacity t
  vlen : t.vals.length = capacity t
  cap_pow : ∃ gk, capacity t = 16 * 2 ^ gk
  size_eq : t.size = countFull t.meta
  tag : ∀ i, i < capacity t → hash_is_full (t.meta.getD i 0) →
    t.meta.getD i 0 = (hash__hash7 (hash__hash seed (t.keys.getD i 0)) ||| 0x80) ∧
      t.keys.getD i 0 < U64
  probe : ProbeOk seed t
  distinct : ∀ i j, i < capacity t → j < capacity t →
    hash_is_full (t.meta.getD i 0) → hash_is_full (t.meta.getD j 0) →
    t.keys.getD i 0 = t.keys.getD j 0 → i = j

/-- Simulation relation between a handle state and the association-list
model: a null handle corresponds to the empty history, a table to a model
whose lookups agree with the table's Full slots (on `uint64` keys; larger
naturals cannot be stored, the interface reduces them first). -/
def Sim {V : Type} [Inhabited V] (seed : Nat) :
    Option (HTable V) → List (Nat × V) → Prop
  | none, sm => sm = []
  | some t, sm => WF seed t ∧
      ∀ k, k < U64 → ∀ v, (mapsTo t k v ↔ specLookup sm k = some v)

/-- Invariant carried through the `hash__rehash` loop: `t` is the old image,
`n` the new capacity, `is` the indices of `t` not yet processed, `nt` the
new image built so far. -/
structure RehashInv {V : Type} [Inhabited V] (seed : Nat) (t : HTable V)
    (n : Nat) (is : List Nat) (nt : HTable V) : Prop where
  cap : capacity nt = n
  klen : nt.keys.length = n
  vlen : nt.vals.length = n
  notomb : ∀ x, x < n → nt.meta.getD x 0 = 0 ∨ hash_is_full (nt.meta.getD x 0) = true
  count : countFull nt.meta +
    is.countP (fun i => hash_is_full (t.meta.getD i 0)) = countFull t.meta
  tag : ∀ x, x < n → hash_is_full (nt.meta.getD x 0) = true →
    nt.meta.getD x 0 = (hash__hash7 (hash__hash seed (nt.keys.getD x 0)) ||| 0x80) ∧
      nt.keys.getD x 0 < U64
  probe : ProbeOk seed nt
  contents : ∀ k v, mapsTo nt k v ↔
    ∃ i, i < capacity t ∧ i ∉ is ∧ hash_is_full (t.meta.getD i 0) = true ∧
      t.keys.getD i 0 = k ∧ t.vals.getD i default = v
  distinct : ∀ x y, x < n → y < n → hash_is_full (nt.meta.getD x 0) = true →
    hash_is_full (nt.meta.getD y 0) = true →
    nt.keys.getD x 0 = nt.keys.getD y 0 → x = y

/-!  #  Helper lemmas: lists -/

theorem getD_set_self {α : Type} {l : List α} {i : Nat} (a d : α)
    (h : i < l.length) : (l.set i a).getD i d = a := by
  simp [List.getD_eq_getElem?_getD, List.getElem?_set_self h]

theorem getD_set_ne {α : Type} {l : List α} {i j : Nat} (a d : α)
    (h : i ≠ j) : (l.set i a).getD j d = l.getD j d := by
  simp [List.getD_eq_getElem?_getD, List.getElem?_set_ne h]

theorem getD_replicate {α : Type} {n i : Nat} (a d : α) (h : i < n) :
    (List.replicate n a).getD i d = a := by
  simp [List.getD_eq_getElem?_getD, List.getElem?_replicate, h]

theorem getD_ge {α : Type} {l : List α} {i : Nat} (d : α)
    (h : l.length ≤ i) : l.getD i d = d := by
  simp [List.getD_eq_getElem?_getD, List.getElem?_eq_none h]

theorem countP_set {α : Type} (p : α → Bool) (l : List α) (i : Nat) (a d : α)
    (h : i < l.length) :
    (l.set i a).countP p + (if p (l.getD i d) then 1 else 0) =
      l.countP p + (if p a then 1 else 0) := by
  induction l generalizing i with
  | nil => simp at h
  | cons x xs ih =>
    cases i with
    | zero =>
      simp only [List.set_cons_zero, List.getD_cons_zero, List.countP_cons]
      omega
    | succ n =>
      simp only [List.set_cons_succ, List.getD_cons_succ, List.countP_cons]
      have := ih (i := n) (by simpa using h)
      omega

theorem countP_mono_set {α : Type} (p : α → Bool) (l : List α) (i : Nat)
    (a d : α) (h : i < l.length) (hpa : p a = true)
    (hold : p (l.getD i d) = false) :
    (l.set i a).countP p = l.countP p + 1 := by
  have := countP_set p l i a d h
  rw [hpa, hold] at this
  simp at this
  omega

theorem countP_eq_set {α : Type} (p : α → Bool) (l : List α) (i : Nat)
    (a d : α) (h : i < l.length) (heq : p a = p (l.getD i d)) :
    (l.set i a).countP p = l.countP p := by
  have := countP_set p l i a d h
  rw [heq] at this
  omega

theorem exists_getD_of_countP_lt {α : Type} (p : α → Bool) (l : List α) (d : α)
    (h : l.countP p < l.length) : ∃ i, i < l.length ∧ p (l.getD i d) = false := by
  by_contra hc
  push_neg at hc
  have : l.countP p = l.length := by
    rw [List.countP_eq_length]
    intro a ha
    obtain ⟨i, hi, rfl⟩ := List.mem_iff_getElem.1 ha
    have := hc i hi
    simpa [List.getD_eq_getElem?_getD, List.getElem?_eq_getElem hi] using
      Bool.eq_true_of_ne_false this
  omega

theorem any_iff_exists_getD {l : List Nat} :
    (l.any (fun b => b == 0)) = true ↔ ∃ i, i < l.length ∧ l.getD i 0 = 0 := by
  rw [List.any_eq_true]
  constructor
  · rintro ⟨a, ha, hp⟩
    obtain ⟨i, hi, rfl⟩ := List.mem_iff_getElem.1 ha
    refine ⟨i, hi, ?_⟩
    have h0 : l[i] = 0 := by simpa using hp
    simp [List.getD_eq_getElem?_getD, List.getElem?_eq_getElem hi, h0]
  · rintro ⟨i, hi, h0⟩
    have h0' : l[i] = 0 := by
      rw [List.getD_eq_getElem?_getD, List.getElem?_eq_getElem hi] at h0
      simpa using h0
    exact ⟨l[i], List.getElem_mem hi, by simp [h0']⟩

/-!  #  Helper lemmas: bitScan -/

theorem bitScan_eq_some {p : Nat → Bool} :
    ∀ {fuel j0 j : Nat}, bitScan p fuel j0 = some j →
      p j = true ∧ j0 ≤ j ∧ j < j0 + fuel ∧
        ∀ i, j0 ≤ i → i < j → p i = false := by
  intro fuel
  induction fuel with
  | zero => intro j0 j h; simp [bitScan] at h
  | succ n ih =>
    intro j0 j h
    rw [bitScan] at h
    by_cases hp : p j0
    · rw [if_pos hp] at h
      obtain rfl : j0 = j := by simpa using h
      exact ⟨hp, le_refl _, by omega, fun i h1 h2 => absurd h1 (by omega)⟩
    · rw [if_neg hp] at h
      obtain ⟨h1, h2, h3, h4⟩ := ih h
      refine ⟨h1, by omega, by omega, fun i hi1 hi2 => ?_⟩
      rcases Nat.eq_or_lt_of_le hi1 with rfl | hlt
      · exact Bool.eq_false_iff.2 hp
      · exact h4 i hlt hi2

theorem bitScan_eq_none {p : Nat → Bool} :
    ∀ {fuel j0 : Nat}, bitScan p fuel j0 = none ↔
      ∀ i, j0 ≤ i → i < j0 + fuel → p i = false := by
  intro fuel
  induction fuel with
  | zero =>
    intro j0
    simp only [bitScan]
    constructor
    · intro _ i h1 h2; omega
    · intro _; trivial
  | succ n ih =>
    intro j0
    rw [bitScan]
    by_cases hp : p j0
    · simp only [if_pos hp]
      constructor
      · intro h; cases h
      · intro h; exact absurd (h j0 (le_refl _) (by omega)) (by simp [hp])
    · simp only [if_neg hp, ih]
      constructor
      · intro h i h1 h2
        rcases Nat.eq_or_lt_of_le h1 with rfl | hlt
        · exact Bool.eq_false_iff.2 hp
        · exact h i hlt (by omega)
      · intro h i h1 h2
        exact h i (by omega) (by omega)

theorem bitScan_first {p : Nat → Bool} {fuel j0 j : Nat} (hp : p j = true)
    (hfirst : ∀ i, j0 ≤ i → i < j → p i = false) (h1 : j0 ≤ j)
    (h2 : j < j0 + fuel) : bitScan p fuel j0 = some j := by
  induction fuel generalizing j0 with
  | zero => omega
  | succ n ih =>
    rw [bitScan]
    rcases Nat.eq_or_lt_of_le h1 with rfl | hlt
    · rw [if_pos hp]
    · rw [if_neg (by simp [hfirst j0 (le_refl _) hlt])]
      exact ih (fun i hi1 hi2 => hfirst i (by omega) hi2) (by omega) (by omega)

/-!  #  Helper lemmas: arithmetic -/

theorem land_mask (x n : Nat) : x &&& (2 ^ n - 1) = x % 2 ^ n :=
  Nat.and_pow_two_sub_one_eq_mod x n

theorem cap_pow_facts {m gk : Nat} (h : m = 16 * 2 ^ gk) :
    m = 2 ^ (gk + 4) ∧ m / 16 = 2 ^ gk ∧ 0 < m / 16 ∧ 16 * (m / 16) = m := by
  subst h
  refine ⟨by rw [Nat.pow_add]; ring, ?_, ?_, ?_⟩
  · rw [Nat.mul_comm, Nat.mul_div_cancel _ (by norm_num)]
  · rw [Nat.mul_comm, Nat.mul_div_cancel _ (by norm_num)]
    exact Nat.pos_pow_of_pos _ (by norm_num)
  · rw [Nat.mul_comm 16 (2 ^ gk), Nat.mul_div_cancel _ (by norm_num)]
    ring

theorem pos_of_pow {G gk : Nat} (hG : G = 2 ^ gk) : 0 < G :=
  hG ▸ Nat.pos_pow_of_pos _ (by norm_num)

theorem lin_decomp {G q j : Nat} (hG : 0 < G) (hj : j < 16) :
    (16 * q + j) % (16 * G) = 16 * (q % G) + j := by
  conv_lhs => rw [show q = G * (q / G) + q % G from (Nat.div_add_mod q G).symm]
  rw [Nat.mul_add, ← Nat.mul_assoc]
  rw [show 16 * G * (q / G) + 16 * (q % G) + j
      = 16 * (q % G) + j + (q / G) * (16 * G) by ring]
  rw [Nat.add_mul_mod_self_right]
  exact Nat.mod_eq_of_lt (by
    have : q % G < G := Nat.mod_lt _ hG
    omega)

theorem grp_step {m G gk q : Nat} (hm : m = 16 * G) (hG : G = 2 ^ gk) :
    (16 * (q % G) + 16) &&& (m - 1) = 16 * ((q + 1) % G) := by
  have h2 : m = 2 ^ (gk + 4) := by
    rw [hm, hG, Nat.pow_add]; ring
  rw [h2, land_mask, ← h2, hm]
  have h3 : 16 * (q % G) + 16 = 16 * (q % G + 1) := by ring
  rw [h3, Nat.mul_mod_mul_left, Nat.mod_add_mod]

/-!  #  Probe loop lemmas

All three fueled loops advance cyclically: `hash__get_idx` and
`hash__get_freetombidx` by whole groups, the rehash placement loop by single
slots.  The lemmas below let a proof skip over groups (slots) that do not
cause the loop to exit, and characterize the exits. -/

theorem getIdxAux_skip {meta keys : List Nat} {m G gk key mask : Nat}
    (hm : m = 16 * G) (hG : G = 2 ^ gk) :
    ∀ (d f q : Nat),
      (∀ u, u < d → grpMatch meta keys (16 * ((q + u) % G)) key mask = none ∧
        grpHasFree meta (16 * ((q + u) % G)) = false) →
      getIdxAux meta keys m key mask (d + f) (16 * (q % G)) =
        getIdxAux meta keys m key mask f (16 * ((q + d) % G)) := by
  intro d
  induction d with
  | zero => intro f q _; simp
  | succ n ih =>
    intro f q h
    have hstep : n + 1 + f = (n + f) + 1 := by omega
    rw [hstep, getIdxAux]
    obtain ⟨hm0, hf0⟩ := h 0 (by omega)
    rw [Nat.add_zero] at hm0 hf0
    rw [hm0, if_neg (by simp [hf0]), grp_step hm hG]
    have := ih f (q + 1) (fun u hu => by
      have h2 := h (u + 1) (by omega)
      rwa [show q + (u + 1) = q + 1 + u by omega] at h2)
    rwa [show q + 1 + n = q + (n + 1) by omega] at this

theorem getIdxAux_found {meta keys : List Nat} {m G gk key mask : Nat}
    (hm : m = 16 * G) (hG : G = 2 ^ gk) (d f q j : Nat)
    (hskip : ∀ u, u < d → grpMatch meta keys (16 * ((q + u) % G)) key mask = none ∧
      grpHasFree meta (16 * ((q + u) % G)) = false)
    (hmatch : grpMatch meta keys (16 * ((q + d) % G)) key mask = some j) :
    getIdxAux meta keys m key mask (d + (f + 1)) (16 * (q % G)) =
      some (some (16 * ((q + d) % G) + j)) := by
  rw [getIdxAux_skip hm hG d (f + 1) q hskip, getIdxAux, hmatch]

theorem getIdxAux_absent {meta keys : List Nat} {m G gk key mask : Nat}
    (hm : m = 16 * G) (hG : G = 2 ^ gk) (d f q : Nat)
    (hskip : ∀ u, u < d → grpMatch meta keys (16 * ((q + u) % G)) key mask = none ∧
      grpHasFree meta (16 * ((q + u) % G)) = false)
    (hmatch : grpMatch meta keys (16 * ((q + d) % G)) key mask = none)
    (hfree : grpHasFree meta (16 * ((q + d) % G)) = true) :
    getIdxAux meta keys m key mask (d + (f + 1)) (16 * (q % G)) = some none := by
  rw [getIdxAux_skip hm hG d (f + 1) q hskip, getIdxAux, hmatch, if_pos hfree]

theorem getIdxAux_diverge {meta keys : List Nat} {m G gk key mask : Nat}
    (hm : m = 16 * G) (hG : G = 2 ^ gk) :
    ∀ (f q : Nat),
      (∀ u, u < G → grpMatch meta keys (16 * ((q + u) % G)) key mask = none ∧
        grpHasFree meta (16 * ((q + u) % G)) = false) →
      getIdxAux meta keys m key mask f (16 * (q % G)) = none := by
  intro f
  induction f with
  | zero => intro q _; rfl
  | succ n ih =>
    intro q h
    have hGpos : 0 < G := pos_of_pow hG
    rw [getIdxAux]
    obtain ⟨hm0, hf0⟩ := h 0 hGpos
    rw [Nat.add_zero] at hm0 hf0
    rw [hm0, if_neg (by simp [hf0]), grp_step hm hG]
    refine ih (q + 1) (fun u hu => ?_)
    rcases Nat.lt_or_ge (u + 1) G with hlt | hge
    · have h2 := h (u + 1) hlt
      rwa [show q + (u + 1) = q + 1 + u by omega] at h2
    · have hu1 : u + 1 = G := by omega
      have h2 := h 0 hGpos
      rw [Nat.add_zero] at h2
      rwa [show q + 1 + u = q + G by omega, Nat.add_mod_right]

theorem getIdxAux_some_sound {meta keys : List Nat} {m G gk key mask : Nat}
    (hm : m = 16 * G) (hG : G = 2 ^ gk) :
    ∀ (f q idx : Nat),
      getIdxAux meta keys m key mask f (16 * (q % G)) = some (some idx) →
      idx < m ∧ meta.getD idx 0 = mask ∧ keys.getD idx 0 = key := by
  intro f
  induction f with
  | zero => intro q idx h; simp [getIdxAux] at h
  | succ n ih =>
    intro q idx h
    have hGpos : 0 < G := pos_of_pow hG
    rw [getIdxAux] at h
    cases hmatch : grpMatch meta keys (16 * (q % G)) key mask with
    | some j =>
      rw [hmatch] at h
      obtain rfl : 16 * (q % G) + j = idx := by simpa using h
      obtain ⟨hp, _, hj, _⟩ := bitScan_eq_some hmatch
      have hj16 : j < 16 := by omega
      rw [Bool.and_eq_true] at hp
      refine ⟨?_, by simpa using hp.1, by simpa using hp.2⟩
      have : q % G < G := Nat.mod_lt _ hGpos
      omega
    | none =>
      rw [hmatch] at h
      by_cases hfree : grpHasFree meta (16 * (q % G))
      · rw [if_pos hfree] at h; simp at h
      · rw [if_neg hfree, grp_step hm hG] at h
        exact ih (q + 1) idx h

theorem getFreeTombAux_skip {meta : List Nat} {m G gk : Nat}
    (hm : m = 16 * G) (hG : G = 2 ^ gk) :
    ∀ (d f q : Nat),
      (∀ u, u < d → grpFreeTomb meta (16 * ((q + u) % G)) = none) →
      getFreeTombAux meta m (d + f) (16 * (q % G)) =
        getFreeTombAux meta m f (16 * ((q + d) % G)) := by
  intro d
  induction d with
  | zero => intro f q _; simp
  | succ n ih =>
    intro f q h
    have hstep : n + 1 + f = (n + f) + 1 := by omega
    rw [hstep, getFreeTombAux]
    have h0 := h 0 (by omega)
    rw [Nat.add_zero] at h0
    rw [h0, grp_step hm hG]
    have := ih f (q + 1) (fun u hu => by
      have h2 := h (u + 1) (by omega)
      rwa [show q + (u + 1) = q + 1 + u by omega] at h2)
    rwa [show q + 1 + n = q + (n + 1) by omega] at this

theorem getFreeTombAux_found {meta : List Nat} {m G gk : Nat}
    (hm : m = 16 * G) (hG : G = 2 ^ gk) (d f q j : Nat)
    (hskip : ∀ u, u < d → grpFreeTomb meta (16 * ((q + u) % G)) = none)
    (hfound : grpFreeTomb meta (16 * ((q + d) % G)) = some j) :
    getFreeTombAux meta m (d + (f + 1)) (16 * (q % G)) =
      some (16 * ((q + d) % G) + j) := by
  rw [getFreeTombAux_skip hm hG d (f + 1) q hskip, getFreeTombAux, hfound]

theorem getFreeTombAux_some_sound {meta : List Nat} {m G gk : Nat}
    (hm : m = 16 * G) (hG : G = 2 ^ gk) :
    ∀ (f q idx : Nat),
      getFreeTombAux meta m f (16 * (q % G)) = some idx →
      idx < m ∧ meta.getD idx 0 &&& 0x80 = 0 := by
  intro f
  induction f with
  | zero => intro q idx h; simp [getFreeTombAux] at h
  | succ n ih =>
    intro q idx h
    have hGpos : 0 < G := pos_of_pow hG
    rw [getFreeTombAux] at h
    cases hfound : grpFreeTomb meta (16 * (q % G)) with
    | some j =>
      rw [hfound] at h
      obtain rfl : 16 * (q % G) + j = idx := by simpa using h
      obtain ⟨hp, _, hj, _⟩ := bitScan_eq_some hfound
      have hj16 : j < 16 := by omega
      refine ⟨?_, by simpa using hp⟩
      have : q % G < G := Nat.mod_lt _ hGpos
      omega
    | none =>
      rw [hfound, grp_step hm hG] at h
      exact ih (q + 1) idx h

theorem rehashFindFree_skip {meta : List Nat} {m n : Nat} (hm : m = 2 ^ n) :
    ∀ (d f i0 : Nat),
      (∀ u, u < d → meta.getD ((i0 + u) % m) 0 ≠ 0) →
      rehashFindFree meta m (d + f) (i0 % m) =
        rehashFindFree meta m f ((i0 + d) % m) := by
  intro d
  induction d with
  | zero => intro f i0 _; simp
  | succ k ih =>
    intro f i0 h
    have hstep : k + 1 + f = (k + f) + 1 := by omega
    rw [hstep, rehashFindFree]
    have h0 := h 0 (by omega)
    rw [Nat.add_zero] at h0
    rw [if_neg (by simpa [hash_is_free] using h0)]
    have harith : (i0 % m + 1) &&& (m - 1) = (i0 + 1) % m := by
      rw [hm, land_mask, ← hm, Nat.mod_add_mod]
    rw [harith]
    have := ih f (i0 + 1) (fun u hu => by
      have h2 := h (u + 1) (by omega)
      rwa [show i0 + (u + 1) = i0 + 1 + u by omega] at h2)
    rwa [show i0 + 1 + k = i0 + (k + 1) by omega] at this

theorem rehashFindFree_found {meta : List Nat} {m n : Nat} (hm : m = 2 ^ n)
    (d f i0 : Nat)
    (hskip : ∀ u, u < d → meta.getD ((i0 + u) % m) 0 ≠ 0)
    (hfree : meta.getD ((i0 + d) % m) 0 = 0) :
    rehashFindFree meta m (d + (f + 1)) (i0 % m) = some ((i0 + d) % m) := by
  rw [rehashFindFree_skip hm d (f + 1) i0 hskip, rehashFindFree,
    if_pos (by simpa [hash_is_free] using hfree)]

/-!  #  Metadata byte facts -/

theorem or80_is_full (x : Nat) : hash_is_full (x ||| 0x80) = true := by
  have h : (x ||| 0x80) &&& 0x80 = 0x80 := by
    apply Nat.eq_of_testBit_eq
    intro n
    simp only [Nat.testBit_and, Nat.testBit_or]
    cases (0x80 : Nat).testBit n <;> simp
  simp [hash_is_full, h]

theorem full_ne_zero {b : Nat} (h : hash_is_full b = true) : b ≠ 0 := by
  intro hb
  rw [hb] at h
  simp [hash_is_full] at h

theorem not_full_of_and80_zero {b : Nat} (h : b &&& 0x80 = 0) :
    hash_is_full b = false := by
  simp [hash_is_full, h]

theorem tomb_not_full : hash_is_full HASH__TOMB = false := by decide

theorem zero_not_full : hash_is_full (0 : Nat) = false := by decide

/-!  #  Modular arithmetic on groups -/

theorem mod_shift_inj {G g0 u d : Nat} (hu : u < G) (hd : d < G)
    (h : (g0 + u) % G = (g0 + d) % G) : u = d := by
  have h2 : u ≡ d [MOD G] := Nat.ModEq.add_left_cancel' g0 h
  have h3 : u % G = d % G := h2
  rwa [Nat.mod_eq_of_lt hu, Nat.mod_eq_of_lt hd] at h3

theorem group_add_dist {G g0 q : Nat} (hG : 0 < G) (hg0 : g0 < G)
    (hq : q < G) : (g0 + (q + G - g0) % G) % G = q := by
  have hsum : g0 + (q + G - g0) = q + G := by omega
  calc (g0 + (q + G - g0) % G) % G
      = (g0 + (q + G - g0)) % G := Nat.add_mod_mod g0 (q + G - g0) G
    _ = (q + G) % G := by rw [hsum]
    _ = q % G := Nat.add_mod_right q G
    _ = q := Nat.mod_eq_of_lt hq

theorem probeDist_decomp {m G i g0 : Nat} (hm : m = 16 * G) (hG : 0 < G)
    (hi : i < m) (hg0 : g0 < G) :
    probeDist m g0 i = 16 * ((i / 16 + G - g0) % G) + i % 16 := by
  subst hm
  unfold probeDist
  have hmod : i % 16 < 16 := Nat.mod_lt _ (by norm_num)
  have h1 : i + 16 * G - 16 * g0 = 16 * (i / 16 + G - g0) + i % 16 := by omega
  rw [h1, lin_decomp hG hmod]

theorem slot_at_probe_pos {m G g0 u j : Nat} (hm : m = 16 * G) (hG : 0 < G)
    (hj : j < 16) :
    (16 * g0 + (16 * u + j)) % m = 16 * ((g0 + u) % G) + j := by
  subst hm
  rw [show 16 * g0 + (16 * u + j) = 16 * (g0 + u) + j by ring]
  exact lin_decomp hG hj

/-!  #  Table-level probe lemmas -/

theorem homeGroup_lt {seed m k G : Nat} (hdiv : m / 16 = G) (hG : 0 < G) :
    homeGroup seed m k < G := by
  unfold homeGroup
  rw [hdiv]
  exact Nat.mod_lt _ hG

theorem grpidx_eq_home {seed m k gk : Nat} (hcap : m = 16 * 2 ^ gk) :
    hash__hash57 (hash__hash seed k) &&& (m / 16 - 1) = homeGroup seed m k := by
  obtain ⟨_, hdiv, _, _⟩ := cap_pow_facts hcap
  unfold homeGroup
  rw [hdiv, land_mask]

theorem and128_cases (b : Nat) : b &&& 0x80 = 0 ∨ b &&& 0x80 = 0x80 := by
  have h128 : (0x80 : Nat) = 2 ^ 7 := by norm_num
  cases hb : b.testBit 7 with
  | false =>
    left
    apply Nat.eq_of_testBit_eq
    intro n
    simp only [Nat.testBit_and, h128, Nat.testBit_two_pow, Nat.zero_testBit]
    rcases eq_or_ne n 7 with rfl | hne
    · simp [hb]
    · simp [Ne.symm hne]
  | true =>
    right
    apply Nat.eq_of_testBit_eq
    intro n
    simp only [Nat.testBit_and, h128, Nat.testBit_two_pow]
    rcases eq_or_ne n 7 with rfl | hne
    · simp [hb]
    · simp [Ne.symm hne]

theorem full_of_and128_ne_zero {b : Nat} (h : b &&& 0x80 ≠ 0) :
    hash_is_full b = true := by
  rcases and128_cases b with h0 | h80
  · exact absurd h0 h
  · simp [hash_is_full, h80]

theorem dist_of_group {G g0 u : Nat} (hG : 0 < G) (hg0 : g0 < G) (hu : u < G) :
    ((g0 + u) % G + G - g0) % G = u := by
  rcases Nat.lt_or_ge (g0 + u) G with hlt | hge
  · rw [Nat.mod_eq_of_lt hlt, show g0 + u + G - g0 = u + G by omega,
      Nat.add_mod_right]
    exact Nat.mod_eq_of_lt hu
  · have h1 : (g0 + u) % G = g0 + u - G := by
      rw [Nat.mod_eq_sub_mod hge]
      exact Nat.mod_eq_of_lt (by omega)
    rw [h1, show g0 + u - G + G - g0 = u by omega]
    exact Nat.mod_eq_of_lt hu

/-- The match probe finds a slot `i` whose tag byte is `mask` and whose key
is `key`, provided no earlier slot of the probe sequence from `16 * g0` is
Free and no other Full slot carries `key`. -/
theorem getIdx_finds_list {meta keys : List Nat} {m G gk key mask g0 i : Nat}
    (hm : m = 16 * G) (hG : G = 2 ^ gk) (hg0 : g0 < G) (hi : i < m)
    (htag : meta.getD i 0 = mask) (hkey : keys.getD i 0 = key)
    (hfullmask : hash_is_full mask = true)
    (hprobe : ∀ d, d < probeDist m g0 i → meta.getD ((16 * g0 + d) % m) 0 ≠ 0)
    (huniq : ∀ s, s < m → hash_is_full (meta.getD s 0) = true →
      keys.getD s 0 = key → s = i) :
    getIdxAux meta keys m key mask (m / 16) (16 * g0) = some (some i) := by
  have hGpos : 0 < G := pos_of_pow hG
  have hdiv : m / 16 = G := by
    rw [hm, Nat.mul_comm, Nat.mul_div_cancel _ (by norm_num)]
  have hq : i / 16 < G := by omega
  have ho : i % 16 < 16 := Nat.mod_lt _ (by norm_num)
  have hio : i = 16 * (i / 16) + i % 16 := by omega
  have hD : (i / 16 + G - g0) % G < G := Nat.mod_lt _ hGpos
  have hgD : (g0 + (i / 16 + G - g0) % G) % G = i / 16 :=
    group_add_dist hGpos hg0 hq
  have hpd : probeDist m g0 i = 16 * ((i / 16 + G - g0) % G) + i % 16 :=
    probeDist_decomp hm hGpos hi hg0
  have hskip : ∀ u, u < (i / 16 + G - g0) % G →
      grpMatch meta keys (16 * ((g0 + u) % G)) key mask = none ∧
        grpHasFree meta (16 * ((g0 + u) % G)) = false := by
    intro u hu
    have hne : ∀ j, j < 16 → meta.getD (16 * ((g0 + u) % G) + j) 0 ≠ 0 := by
      intro j hj
      have hd : 16 * u + j < probeDist m g0 i := by rw [hpd]; omega
      have h2 := hprobe (16 * u + j) hd
      rwa [slot_at_probe_pos hm hGpos hj] at h2
    refine ⟨?_, ?_⟩
    · rw [grpMatch, bitScan_eq_none]
      intro j _ hj16
      rw [Nat.zero_add] at hj16
      by_contra hc
      rw [Bool.not_eq_false, Bool.and_eq_true] at hc
      have hmeta : meta.getD (16 * ((g0 + u) % G) + j) 0 = mask := by
        simpa using hc.1
      have hkey2 : keys.getD (16 * ((g0 + u) % G) + j) 0 = key := by
        simpa using hc.2
      have hguG : (g0 + u) % G < G := Nat.mod_lt _ hGpos
      have hsm : 16 * ((g0 + u) % G) + j < m := by omega
      have hsfull : hash_is_full (meta.getD (16 * ((g0 + u) % G) + j) 0) = true := by
        rw [hmeta]; exact hfullmask
      have hsi := huniq _ hsm hsfull hkey2
      have hgu : (g0 + u) % G = i / 16 := by omega
      have huD : u = (i / 16 + G - g0) % G :=
        mod_shift_inj (lt_trans hu hD) hD (hgu.trans hgD.symm)
      omega
    · have hnone : bitScan
          (fun j => meta.getD (16 * ((g0 + u) % G) + j) 0 == 0) 16 0 = none := by
        rw [bitScan_eq_none]
        intro j _ hj16
        rw [Nat.zero_add] at hj16
        simpa using hne j hj16
      rw [grpHasFree, hnone]
      rfl
  have hmatch : grpMatch meta keys
      (16 * ((g0 + (i / 16 + G - g0) % G) % G)) key mask = some (i % 16) := by
    rw [hgD, grpMatch]
    apply bitScan_first
    · rw [Bool.and_eq_true]
      constructor
      · rw [← hio, htag]; simp
      · rw [← hio, hkey]; simp
    · intro j _ hj
      by_contra hc
      rw [Bool.not_eq_false, Bool.and_eq_true] at hc
      have hmeta : meta.getD (16 * (i / 16) + j) 0 = mask := by simpa using hc.1
      have hkey2 : keys.getD (16 * (i / 16) + j) 0 = key := by simpa using hc.2
      have hsm : 16 * (i / 16) + j < m := by omega
      have hsfull : hash_is_full (meta.getD (16 * (i / 16) + j) 0) = true := by
        rw [hmeta]; exact hfullmask
      have hsi := huniq _ hsm hsfull hkey2
      omega
    · omega
    · omega
  have hfuel : m / 16 =
      (i / 16 + G - g0) % G + ((G - (i / 16 + G - g0) % G - 1) + 1) := by
    rw [hdiv]; omega
  have hstart : 16 * g0 = 16 * (g0 % G) := by rw [Nat.mod_eq_of_lt hg0]
  rw [hstart, hfuel, getIdxAux_found hm hG ((i / 16 + G - g0) % G)
    (G - (i / 16 + G - g0) % G - 1) g0 (i % 16) hskip hmatch, hgD, ← hio]

/-- The match probe reports "not present" when no Full slot carries `key` and
some metadata byte is Free. -/
theorem getIdx_absent_list {meta keys : List Nat} {m G gk key mask g0 : Nat}
    (hm : m = 16 * G) (hG : G = 2 ^ gk) (hg0 : g0 < G) (hlen : meta.length = m)
    (hnokey : ∀ s, s < m → hash_is_full (meta.getD s 0) = true →
      keys.getD s 0 ≠ key)
    (hfullmask : hash_is_full mask = true)
    (hfree : ∃ x, x < m ∧ meta.getD x 0 = 0) :
    getIdxAux meta keys m key mask (m / 16) (16 * g0) = some none := by
  have hGpos : 0 < G := pos_of_pow hG
  have hdiv : m / 16 = G := by
    rw [hm, Nat.mul_comm, Nat.mul_div_cancel _ (by norm_num)]
  have hnomatch : ∀ pos, grpMatch meta keys pos key mask = none := by
    intro pos
    rw [grpMatch, bitScan_eq_none]
    intro j _ _
    by_contra hc
    rw [Bool.not_eq_false, Bool.and_eq_true] at hc
    have hmeta : meta.getD (pos + j) 0 = mask := by simpa using hc.1
    have hkey2 : keys.getD (pos + j) 0 = key := by simpa using hc.2
    rcases Nat.lt_or_ge (pos + j) m with hsm | hsm
    · exact hnokey _ hsm (by rw [hmeta]; exact hfullmask) hkey2
    · rw [getD_ge _ (by omega)] at hmeta
      rw [← hmeta] at hfullmask
      exact absurd hfullmask (by decide)
  have hex : ∃ u, grpHasFree meta (16 * ((g0 + u) % G)) = true := by
    obtain ⟨x, hx, hx0⟩ := hfree
    have hxq : x / 16 < G := by omega
    have hxo : x % 16 < 16 := Nat.mod_lt _ (by norm_num)
    refine ⟨(x / 16 + G - g0) % G, ?_⟩
    rw [group_add_dist hGpos hg0 hxq, grpHasFree]
    cases hbs : bitScan (fun j => meta.getD (16 * (x / 16) + j) 0 == 0) 16 0 with
    | some j => rfl
    | none =>
      rw [bitScan_eq_none] at hbs
      have h2 := hbs (x % 16) (by omega) (by omega)
      rw [show 16 * (x / 16) + x % 16 = x by omega, hx0] at h2
      simp at h2
  classical
  let u0 := Nat.find hex
  have hu0 : grpHasFree meta (16 * ((g0 + u0) % G)) = true := Nat.find_spec hex
  have hmin : ∀ v, v < u0 → grpHasFree meta (16 * ((g0 + v) % G)) = false := by
    intro v hv
    have := Nat.find_min hex hv
    simpa using this
  have hu0G : u0 < G := by
    obtain ⟨u, hu⟩ := id hex
    rcases Nat.lt_or_ge u G with h | h
    · exact Nat.lt_of_le_of_lt (Nat.find_min' hex hu) h
    · have hu' : grpHasFree meta (16 * ((g0 + u % G) % G)) = true := by
        rwa [Nat.add_mod_mod]
      exact Nat.lt_of_le_of_lt (Nat.find_min' hex hu') (Nat.mod_lt _ hGpos)
  have hskip : ∀ u, u < u0 →
      grpMatch meta keys (16 * ((g0 + u) % G)) key mask = none ∧
        grpHasFree meta (16 * ((g0 + u) % G)) = false :=
    fun u hu => ⟨hnomatch _, hmin u hu⟩
  have hfuel : m / 16 = u0 + ((G - u0 - 1) + 1) := by rw [hdiv]; omega
  have hstart : 16 * g0 = 16 * (g0 % G) := by rw [Nat.mod_eq_of_lt hg0]
  rw [hstart, hfuel,
    getIdxAux_absent hm hG u0 (G - u0 - 1) g0 hskip (hnomatch _) hu0]

/-- The Free-or-Tombstone probe returns the first non-Full slot in probe
order, provided one exists; every slot strictly before it is Full. -/
theorem freeTomb_list {meta : List Nat} {m G gk g0 : Nat}
    (hm : m = 16 * G) (hG : G = 2 ^ gk) (hg0 : g0 < G)
    (hnonfull : ∃ x, x < m ∧ meta.getD x 0 &&& 0x80 = 0) :
    ∃ idx, getFreeTombAux meta m (m / 16) (16 * g0) = some idx ∧ idx < m ∧
      meta.getD idx 0 &&& 0x80 = 0 ∧
      ∀ d, d < probeDist m g0 idx →
        hash_is_full (meta.getD ((16 * g0 + d) % m) 0) = true := by
  have hGpos : 0 < G := pos_of_pow hG
  have hdiv : m / 16 = G := by
    rw [hm, Nat.mul_comm, Nat.mul_div_cancel _ (by norm_num)]
  have hex : ∃ u, (grpFreeTomb meta (16 * ((g0 + u) % G))).isSome = true := by
    obtain ⟨x, hx, hx0⟩ := hnonfull
    have hxq : x / 16 < G := by omega
    refine ⟨(x / 16 + G - g0) % G, ?_⟩
    rw [group_add_dist hGpos hg0 hxq, grpFreeTomb]
    cases hbs : bitScan (fun j => meta.getD (16 * (x / 16) + j) 0 &&& 0x80 == 0)
        16 0 with
    | some j => rfl
    | none =>
      rw [bitScan_eq_none] at hbs
      have h2 := hbs (x % 16) (by omega) (by omega)
      rw [show 16 * (x / 16) + x % 16 = x by omega, hx0] at h2
      simp at h2
  classical
  let u0 := Nat.find hex
  have hu0 : (grpFreeTomb meta (16 * ((g0 + u0) % G))).isSome = true :=
    Nat.find_spec hex
  have hmin : ∀ v, v < u0 →
      grpFreeTomb meta (16 * ((g0 + v) % G)) = none := by
    intro v hv
    have hnot := Nat.find_min hex hv
    cases hgf : grpFreeTomb meta (16 * ((g0 + v) % G)) with
    | none => rfl
    | some j => exact absurd (by rw [hgf]; rfl) hnot
  have hu0G : u0 < G := by
    obtain ⟨u, hu⟩ := id hex
    rcases Nat.lt_or_ge u G with h | h
    · exact Nat.lt_of_le_of_lt (Nat.find_min' hex hu) h
    · have hu' : (grpFreeTomb meta (16 * ((g0 + u % G) % G))).isSome = true := by
        rwa [Nat.add_mod_mod]
      exact Nat.lt_of_le_of_lt (Nat.find_min' hex hu') (Nat.mod_lt _ hGpos)
  obtain ⟨j0, hj0⟩ := Option.isSome_iff_exists.1 hu0
  obtain ⟨hpj0, _, hj0f, hj0first⟩ := bitScan_eq_some hj0
  have hj016 : j0 < 16 := by omega
  have hguG : (g0 + u0) % G < G := Nat.mod_lt _ hGpos
  refine ⟨16 * ((g0 + u0) % G) + j0, ?_, by omega, by simpa using hpj0, ?_⟩
  · have hfuel : m / 16 = u0 + ((G - u0 - 1) + 1) := by rw [hdiv]; omega
    have hstart : 16 * g0 = 16 * (g0 % G) := by rw [Nat.mod_eq_of_lt hg0]
    rw [hstart, hfuel, getFreeTombAux_found hm hG u0 (G - u0 - 1) g0 j0 hmin hj0]
  · intro d hd
    have hidx : 16 * ((g0 + u0) % G) + j0 < m := by omega
    have hpd : probeDist m g0 (16 * ((g0 + u0) % G) + j0) = 16 * u0 + j0 := by
      rw [probeDist_decomp hm hGpos hidx hg0]
      have hdivj : (16 * ((g0 + u0) % G) + j0) / 16 = (g0 + u0) % G := by omega
      have hmodj : (16 * ((g0 + u0) % G) + j0) % 16 = j0 := by omega
      rw [hdivj, hmodj, dist_of_group hGpos hg0 hu0G]
    rw [hpd] at hd
    have hv : d / 16 < G := by omega
    have hj : d % 16 < 16 := Nat.mod_lt _ (by norm_num)
    have hdd : d = 16 * (d / 16) + d % 16 := by omega
    have hpos : (16 * g0 + d) % m = 16 * ((g0 + d / 16) % G) + d % 16 := by
      conv_lhs => rw [hdd]
      exact slot_at_probe_pos hm hGpos hj
    rw [hpos]
    rcases Nat.lt_or_ge (d / 16) u0 with hvu | hvu
    · have hnone := hmin _ hvu
      rw [grpFreeTomb, bitScan_eq_none] at hnone
      have := hnone (d % 16) (by omega) (by omega)
      apply full_of_and128_ne_zero
      simpa using this
    · have hveq : d / 16 = u0 := by omega
      have hjlt : d % 16 < j0 := by omega
      have := hj0first (d % 16) (by omega) hjlt
      rw [hveq]
      apply full_of_and128_ne_zero
      simpa using this

/-- If one full cycle of groups shows neither a key match nor a Free byte,
the `hash__get_idx` loop never exits, whatever the fuel. -/
theorem getIdx_diverge_list {meta keys : List Nat} {m G gk key mask g0 : Nat}
    (hm : m = 16 * G) (hG : G = 2 ^ gk) (hg0 : g0 < G)
    (h : ∀ u, u < G → grpMatch meta keys (16 * ((g0 + u) % G)) key mask = none ∧
      grpHasFree meta (16 * ((g0 + u) % G)) = false) :
    ∀ fuel, getIdxAux meta keys m key mask fuel (16 * g0) = none := by
  intro fuel
  have hstart : 16 * g0 = 16 * (g0 % G) := by rw [Nat.mod_eq_of_lt hg0]
  rw [hstart]
  exact getIdxAux_diverge hm hG fuel g0 h

theorem not_full_iff_and128 {b : Nat} :
    hash_is_full b = false ↔ b &&& 0x80 = 0 := by
  constructor
  · intro h
    rcases and128_cases b with h0 | h80
    · exact h0
    · simp [hash_is_full, h80] at h
  · exact not_full_of_and80_zero

/-!  #  Wrappers at the level of `hash__get_idx` and `hash__get_freetombidx` -/

/-- A Full slot of a well-formed table is found by `hash__get_idx` when
probed for its own key. -/
theorem get_idx_finds {V : Type} {seed : Nat} {t : HTable V} (hwf : WF seed t)
    {i : Nat} (hi : i < capacity t)
    (hfull : hash_is_full (t.meta.getD i 0) = true) :
    hash__get_idx seed t (t.keys.getD i 0) = some (some i) := by
  obtain ⟨gk, hcap⟩ := hwf.cap_pow
  obtain ⟨_, hdiv, hGpos, _⟩ := cap_pow_facts hcap
  show getIdxAux t.meta t.keys (capacity t) (t.keys.getD i 0)
      (hash__hash7 (hash__hash seed (t.keys.getD i 0)) ||| 0x80)
      (capacity t / 16)
      ((hash__hash57 (hash__hash seed (t.keys.getD i 0)) &&&
        (capacity t / 16 - 1)) * 16) = some (some i)
  rw [grpidx_eq_home hcap, Nat.mul_comm]
  exact getIdx_finds_list hcap rfl (homeGroup_lt hdiv (hdiv ▸ hGpos)) hi
    (hwf.tag i hi hfull).1 rfl (or80_is_full _) (hwf.probe i hi hfull)
    (fun s hs hsf hsk => hwf.distinct s i hs hi hsf hfull hsk)

/-- `hash__get_idx` reports "not present" when no Full slot of a well-formed
table carries the probed key and at least one metadata byte is Free. -/
theorem get_idx_absent {V : Type} {seed : Nat} {t : HTable V} (hwf : WF seed t)
    {key : Nat}
    (hnokey : ∀ i, i < capacity t → hash_is_full (t.meta.getD i 0) = true →
      t.keys.getD i 0 ≠ key)
    (hfree : hasFree t = true) :
    hash__get_idx seed t key = some none := by
  obtain ⟨gk, hcap⟩ := hwf.cap_pow
  obtain ⟨_, hdiv, hGpos, _⟩ := cap_pow_facts hcap
  show getIdxAux t.meta t.keys (capacity t) key
      (hash__hash7 (hash__hash seed key) ||| 0x80) (capacity t / 16)
      ((hash__hash57 (hash__hash seed key) &&& (capacity t / 16 - 1)) * 16) =
      some none
  rw [grpidx_eq_home hcap, Nat.mul_comm]
  exact getIdx_absent_list hcap rfl (homeGroup_lt hdiv (hdiv ▸ hGpos)) rfl
    hnokey (or80_is_full _) (by
      rw [hasFree] at hfree
      exact any_iff_exists_getD.1 hfree)

/-- Whatever `hash__get_idx` returns as a hit is a slot below capacity whose
metadata byte is the probe mask and whose key is the probed key. -/
theorem get_idx_sound {V : Type} {seed : Nat} {t : HTable V} {key idx gk : Nat}
    (hcap : capacity t = 16 * 2 ^ gk)
    (h : hash__get_idx seed t key = some (some idx)) :
    idx < capacity t ∧
      t.meta.getD idx 0 = (hash__hash7 (hash__hash seed key) ||| 0x80) ∧
      t.keys.getD idx 0 = key := by
  obtain ⟨_, hdiv, hGpos, _⟩ := cap_pow_facts hcap
  have h2 : getIdxAux t.meta t.keys (capacity t) key
      (hash__hash7 (hash__hash seed key) ||| 0x80) (capacity t / 16)
      (16 * (hash__hash57 (hash__hash seed key) % 2 ^ gk)) = some (some idx) := by
    rw [← h]
    show getIdxAux _ _ _ _ _ _ _ =
      getIdxAux t.meta t.keys (capacity t) key
        (hash__hash7 (hash__hash seed key) ||| 0x80) (capacity t / 16)
        ((hash__hash57 (hash__hash seed key) &&& (capacity t / 16 - 1)) * 16)
    rw [hdiv, land_mask, Nat.mul_comm]
  exact getIdxAux_some_sound hcap rfl (capacity t / 16)
    (hash__hash57 (hash__hash seed key)) idx h2

/-- Whatever `hash__get_freetombidx` returns is a slot below capacity whose
metadata byte has the high bit clear. -/
theorem get_freetomb_sound {V : Type} {seed : Nat} {t : HTable V}
    {key idx gk : Nat} (hcap : capacity t = 16 * 2 ^ gk)
    (h : hash__get_freetombidx seed t key = some idx) :
    idx < capacity t ∧ t.meta.getD idx 0 &&& 0x80 = 0 := by
  obtain ⟨_, hdiv, hGpos, _⟩ := cap_pow_facts hcap
  have h2 : getFreeTombAux t.meta (capacity t) (capacity t / 16)
      (16 * (hash__hash57 (hash__hash seed key) % 2 ^ gk)) = some idx := by
    rw [← h]
    show getFreeTombAux _ _ _ _ =
      getFreeTombAux t.meta (capacity t) (capacity t / 16)
        ((hash__hash57 (hash__hash seed key) &&& (capacity t / 16 - 1)) * 16)
    rw [hdiv, land_mask, Nat.mul_comm]
  exact getFreeTombAux_some_sound hcap rfl (capacity t / 16)
    (hash__hash57 (hash__hash seed key)) idx h2

/-- When the table has a non-Full slot, `hash__get_freetombidx` returns the
first non-Full slot of the key's probe sequence: every slot strictly before
it in probe order is Full. -/
theorem get_freetomb_spec {V : Type} {seed : Nat} {t : HTable V} {gk : Nat}
    (hcap : capacity t = 16 * 2 ^ gk) (key : Nat)
    (hnonfull : ∃ x, x < capacity t ∧ hash_is_full (t.meta.getD x 0) = false) :
    ∃ idx, hash__get_freetombidx seed t key = some idx ∧ idx < capacity t ∧
      hash_is_full (t.meta.getD idx 0) = false ∧
      ∀ d, d < probeDist (capacity t) (homeGroup seed (capacity t) key) idx →
        hash_is_full
          (t.meta.getD ((16 * homeGroup seed (capacity t) key + d) %
            capacity t) 0) = true := by
  obtain ⟨_, hdiv, hGpos, _⟩ := cap_pow_facts hcap
  obtain ⟨x, hx, hxnf⟩ := hnonfull
  obtain ⟨idx, hrun, hidx, hnf, hfullpre⟩ :=
    @freeTomb_list t.meta (capacity t) (2 ^ gk) gk
      (homeGroup seed (capacity t) key) hcap rfl
      (homeGroup_lt hdiv (hdiv ▸ hGpos))
      ⟨x, hx, not_full_iff_and128.1 hxnf⟩
  refine ⟨idx, ?_, hidx, not_full_iff_and128.2 hnf, hfullpre⟩
  show getFreeTombAux t.meta (capacity t) (capacity t / 16)
      ((hash__hash57 (hash__hash seed key) &&& (capacity t / 16 - 1)) * 16) =
      some idx
  rw [grpidx_eq_home hcap, Nat.mul_comm]
  exact hrun

/-!  #  Operation-level lemmas -/

theorem countP_range_getD {α : Type} (d : α) (p : α → Bool) :
    ∀ l : List α,
      (List.range l.length).countP (fun i => p (l.getD i d)) = l.countP p := by
  intro l
  induction l with
  | nil => rfl
  | cons x xs ih =>
    rw [List.length_cons, List.range_succ_eq_map, List.countP_cons,
      List.countP_map, List.countP_cons]
    simp only [List.getD_cons_zero, Function.comp]
    have : (List.countP ((fun i => p ((x :: xs).getD i d)) ∘ fun i => i + 1)
        (List.range xs.length)) =
        List.countP (fun i => p (xs.getD i d)) (List.range xs.length) := by
      apply List.countP_congr
      intro a _
      simp [Function.comp]
    rw [this, ih]

theorem probeDist_mod {n a d : Nat} (hn : 0 < n) (ha : a ≤ n) (hd : d < n) :
    ((a + d) % n + n - a) % n = d := by
  rcases Nat.lt_or_ge (a + d) n with hlt | hge
  · rw [Nat.mod_eq_of_lt hlt, show a + d + n - a = d + n by omega,
      Nat.add_mod_right]
    exact Nat.mod_eq_of_lt hd
  · have h1 : (a + d) % n = a + d - n := by
      rw [Nat.mod_eq_sub_mod hge]
      exact Nat.mod_eq_of_lt (by omega)
    rw [h1, show a + d - n + n - a = d by omega]
    exact Nat.mod_eq_of_lt hd

theorem capacity_init {V : Type} [Inhabited V] (vsz : Nat) :
    capacity (hash__init V vsz) = 16 := by
  simp [capacity, hash__init, HASH__START_CAPACITY]

theorem meta_init {V : Type} [Inhabited V] (vsz i : Nat) :
    (hash__init V vsz).meta.getD i 0 = 0 := by
  rcases Nat.lt_or_ge i 16 with h | h
  · exact getD_replicate 0 0 h
  · exact getD_ge _ (by simpa [hash__init, HASH__START_CAPACITY] using h)

theorem wf_init {V : Type} [Inhabited V] (seed vsz : Nat) :
    WF seed (hash__init V vsz) := by
  refine ⟨?_, ?_, ⟨0, by simp [capacity_init]⟩, ?_, ?_, ?_, ?_⟩
  · simp [hash__init, capacity, HASH__START_CAPACITY]
  · simp [hash__init, capacity, HASH__START_CAPACITY]
  · have : countFull (hash__init V vsz).meta = 0 := by
      rw [countFull, List.countP_eq_zero]
      intro b hb
      rw [List.eq_of_mem_replicate hb]
      decide
    rw [this]
    rfl
  · intro i hi hfull
    rw [meta_init] at hfull
    simp [hash_is_full] at hfull
  · intro i hi hfull
    rw [meta_init] at hfull
    simp [hash_is_full] at hfull
  · intro i j hi hj hfi
    rw [meta_init] at hfi
    simp [hash_is_full] at hfi

theorem hasFree_init {V : Type} [Inhabited V] (vsz : Nat) :
    hasFree (hash__init V vsz) = true := by
  rw [hasFree, any_iff_exists_getD]
  exact ⟨0, by simp [hash__init, HASH__START_CAPACITY], meta_init vsz 0⟩

theorem not_mapsTo_init {V : Type} [Inhabited V] (vsz : Nat) (k : Nat) (v : V) :
    ¬ mapsTo (hash__init V vsz) k v := by
  rintro ⟨i, hi, hfull, _, _⟩
  rw [meta_init] at hfull
  simp [hash_is_full] at hfull

/-- Effect of `hash_del` on a hit: the matched metadata byte becomes
`HASH__TOMB`, `size` drops by one, everything else is untouched. -/
theorem delT_hit {V : Type} [Inhabited V] {seed : Nat} {t : HTable V}
    (hwf : WF seed t) {i key : Nat} (hi : i < capacity t)
    (hfull : hash_is_full (t.meta.getD i 0) = true)
    (hkey : t.keys.getD i 0 = key % U64) (fv : Bool) :
    hash_delT seed t key fv =
      some (true, { t with meta := t.meta.set i HASH__TOMB,
                           size := t.size - 1 }) := by
  have hfind : hash__get_idx seed t (key % U64) = some (some i) := by
    rw [← hkey]
    exact get_idx_finds hwf hi hfull
  rw [hash_delT, hfind]

/-- Effect of `hash_del` on a miss (some Free byte required for the probe
loop to exit): the table is unchanged and `false` is returned. -/
theorem delT_miss {V : Type} [Inhabited V] {seed : Nat} {t : HTable V}
    (hwf : WF seed t) {key : Nat}
    (hnokey : ∀ i, i < capacity t → hash_is_full (t.meta.getD i 0) = true →
      t.keys.getD i 0 ≠ key % U64)
    (hfree : hasFree t = true) (fv : Bool) :
    hash_delT seed t key fv = some (false, t) := by
  rw [hash_delT, get_idx_absent hwf hnokey hfree]

/-- The table after a `hash_del` hit is well-formed. -/
theorem wf_del {V : Type} [Inhabited V] {seed : Nat} {t : HTable V}
    (hwf : WF seed t) {i : Nat} (hi : i < capacity t)
    (hfull : hash_is_full (t.meta.getD i 0) = true) :
    WF seed { t with meta := t.meta.set i HASH__TOMB, size := t.size - 1 } := by
  have hcapeq :
      capacity { t with meta := t.meta.set i HASH__TOMB, size := t.size - 1 } =
        capacity t := by
    simp [capacity]
  have hmeta : ∀ j, j ≠ i →
      (t.meta.set i HASH__TOMB).getD j 0 = t.meta.getD j 0 :=
    fun j hj => getD_set_ne _ _ (fun h => hj h.symm)
  have hmetai : (t.meta.set i HASH__TOMB).getD i 0 = HASH__TOMB :=
    getD_set_self _ _ hi
  have hfullnew : ∀ j, j < capacity t →
      hash_is_full ((t.meta.set i HASH__TOMB).getD j 0) = true →
      j ≠ i ∧ hash_is_full (t.meta.getD j 0) = true := by
    intro j hj hfj
    rcases eq_or_ne j i with rfl | hne
    · rw [hmetai] at hfj
      exact absurd hfj (by decide)
    · rw [hmeta j hne] at hfj
      exact ⟨hne, hfj⟩
  refine ⟨by simpa [hcapeq] using hwf.klen, by simpa [hcapeq] using hwf.vlen,
    hcapeq ▸ hwf.cap_pow, ?_, ?_, ?_, ?_⟩
  · show t.size - 1 = countFull (t.meta.set i HASH__TOMB)
    have hc := countP_set (fun b => hash_is_full b) t.meta i HASH__TOMB 0 hi
    simp only [hfull, tomb_not_full] at hc
    simp at hc
    have hsz := hwf.size_eq
    rw [countFull] at *
    omega
  · intro j hj hfj
    rw [hcapeq] at hj
    obtain ⟨hne, hfj'⟩ := hfullnew j hj hfj
    have := hwf.tag j hj hfj'
    rwa [← hmeta j hne] at this
  · intro j hj hfj d hd
    rw [hcapeq] at hj
    obtain ⟨hne, hfj'⟩ := hfullnew j hj hfj
    simp only [hcapeq, hmeta j hne] at hd ⊢
    have hold := hwf.probe j hj hfj' d hd
    set pos := (16 * homeGroup seed (capacity t) (t.keys.getD j 0) + d) %
      capacity t with hposdef
    rcases eq_or_ne pos i with rfl | hposne
    · rw [hmetai]
      simp [HASH__TOMB]
    · rw [hmeta pos hposne]
      exact hold
  · intro x y hx hy hfx hfy hk
    rw [hcapeq] at hx hy
    obtain ⟨hnex, hfx'⟩ := hfullnew x hx hfx
    obtain ⟨hney, hfy'⟩ := hfullnew y hy hfy
    exact hwf.distinct x y hx hy hfx' hfy' hk

/-- Contents after a `hash_del` hit: exactly the deleted key disappears. -/
theorem mapsTo_del {V : Type} [Inhabited V] {seed : Nat} {t : HTable V}
    (hwf : WF seed t) {i : Nat} (hi : i < capacity t)
    (hfull : hash_is_full (t.meta.getD i 0) = true) (k : Nat) (v : V) :
    mapsTo { t with meta := t.meta.set i HASH__TOMB, size := t.size - 1 } k v ↔
      (mapsTo t k v ∧ k ≠ t.keys.getD i 0) := by
  have hmetai : (t.meta.set i HASH__TOMB).getD i 0 = HASH__TOMB :=
    getD_set_self _ _ hi
  constructor
  · rintro ⟨j, hj, hfj, hkj, hvj⟩
    simp only [capacity, List.length_set] at hj
    rcases eq_or_ne j i with rfl | hne
    · rw [hmetai] at hfj
      exact absurd hfj (by decide)
    · rw [getD_set_ne _ _ (fun h => hne h.symm)] at hfj
      refine ⟨⟨j, hj, hfj, hkj, hvj⟩, ?_⟩
      intro hk
      exact hne (hwf.distinct j i hj hi hfj hfull (by rw [hkj, hk]))
  · rintro ⟨⟨j, hj, hfj, hkj, hvj⟩, hk⟩
    have hne : j ≠ i := by
      intro h
      subst h
      exact hk hkj.symm
    refine ⟨j, ?_, ?_, hkj, hvj⟩
    · simpa [capacity, List.length_set] using hj
    · rw [getD_set_ne _ _ (fun h => hne h.symm)]
      exact hfj

/-- The table written by the miss branch of `hash_put` (before the growth
check) is well-formed.  `idx` is the slot delivered by
`hash__get_freetombidx`: non-Full, with all earlier probe-sequence slots
Full. -/
theorem wf_put_miss {V : Type} [Inhabited V] {seed : Nat} {t : HTable V}
    (hwf : WF seed t) {key idx : Nat}
    (hnokey : ∀ i, i < capacity t → hash_is_full (t.meta.getD i 0) = true →
      t.keys.getD i 0 ≠ key % U64)
    (hidx : idx < capacity t)
    (hnf : hash_is_full (t.meta.getD idx 0) = false)
    (hpre : ∀ d, d < probeDist (capacity t)
        (homeGroup seed (capacity t) (key % U64)) idx →
      hash_is_full (t.meta.getD
        ((16 * homeGroup seed (capacity t) (key % U64) + d) %
          capacity t) 0) = true)
    (v : V) :
    WF seed { t with
      meta := t.meta.set idx (hash__hash7 (hash__hash seed (key % U64)) ||| 0x80)
      keys := t.keys.set idx (key % U64)
      vals := t.vals.set idx v
      size := t.size + 1 } := by
  have hU : 0 < U64 := by norm_num [U64]
  set mask := hash__hash7 (hash__hash seed (key % U64)) ||| 0x80 with hmaskdef
  have hmeta : ∀ j, j ≠ idx →
      (t.meta.set idx mask).getD j 0 = t.meta.getD j 0 :=
    fun j hj => getD_set_ne _ _ (fun h => hj h.symm)
  have hmetai : (t.meta.set idx mask).getD idx 0 = mask :=
    getD_set_self _ _ hidx
  have hkeys : ∀ j, j ≠ idx →
      (t.keys.set idx (key % U64)).getD j 0 = t.keys.getD j 0 :=
    fun j hj => getD_set_ne _ _ (fun h => hj h.symm)
  have hkeysi : (t.keys.set idx (key % U64)).getD idx 0 = key % U64 :=
    getD_set_self _ _ (by rw [hwf.klen]; exact hidx)
  refine ⟨?_, ?_, ?_, ?_, ?_, ?_, ?_⟩
  · show (t.keys.set idx (key % U64)).length = _
    simp [capacity, hwf.klen]
  · show (t.vals.set idx v).length = _
    simp [capacity, hwf.vlen]
  · obtain ⟨gk, hg⟩ := hwf.cap_pow
    exact ⟨gk, by simpa [capacity] using hg⟩
  · show t.size + 1 = countFull (t.meta.set idx mask)
    have hmf : hash_is_full mask = true := by
      rw [hmaskdef]; exact or80_is_full _
    have hc := countP_mono_set (fun b => hash_is_full b) t.meta idx mask 0 hidx
      hmf hnf
    rw [countFull, hc]
    have hsz := hwf.size_eq
    rw [countFull] at hsz
    omega
  · intro j hj hfj
    simp only [capacity, List.length_set] at hj
    rcases eq_or_ne j idx with rfl | hne
    · refine ⟨?_, ?_⟩
      · show (t.meta.set j mask).getD j 0 = _
        rw [hmetai, hkeysi]
      · show (t.keys.set j (key % U64)).getD j 0 < U64
        rw [hkeysi]
        exact Nat.mod_lt _ hU
    · have hfj' : hash_is_full (t.meta.getD j 0) = true := by
        have : hash_is_full ((t.meta.set idx mask).getD j 0) = true := hfj
        rwa [hmeta j hne] at this
      have htg := hwf.tag j hj hfj'
      show (t.meta.set idx mask).getD j 0 =
          (hash__hash7 (hash__hash seed ((t.keys.set idx (key % U64)).getD j 0)) |||
            0x80) ∧ (t.keys.set idx (key % U64)).getD j 0 < U64
      rw [hmeta j hne, hkeys j hne]
      exact htg
  · intro j hj hfj d hd
    simp only [capacity, List.length_set] at hj hd ⊢
    rcases eq_or_ne j idx with rfl | hne
    · rw [hkeysi] at hd ⊢
      rcases eq_or_ne ((16 * homeGroup seed t.meta.length (key % U64) + d) %
          t.meta.length) j with heq | hposne
      · rw [heq, hmetai]
        exact full_ne_zero (or80_is_full _)
      · rw [hmeta _ hposne]
        exact full_ne_zero (hpre d hd)
    · rw [hkeys j hne] at hd ⊢
      have hfj' : hash_is_full (t.meta.getD j 0) = true := by
        have : hash_is_full ((t.meta.set idx mask).getD j 0) = true := hfj
        rwa [hmeta j hne] at this
      have hold := hwf.probe j hj hfj' d hd
      rcases eq_or_ne ((16 * homeGroup seed t.meta.length (t.keys.getD j 0) + d) %
          t.meta.length) idx with heq | hposne
      · rw [heq, hmetai]
        exact full_ne_zero (or80_is_full _)
      · rw [hmeta _ hposne]
        exact hold
  · intro x y hx hy hfx hfy hk
    simp only [capacity, List.length_set] at hx hy
    have hfx2 : hash_is_full ((t.meta.set idx mask).getD x 0) = true := hfx
    have hfy2 : hash_is_full ((t.meta.set idx mask).getD y 0) = true := hfy
    have hk2 : (t.keys.set idx (key % U64)).getD x 0 =
        (t.keys.set idx (key % U64)).getD y 0 := hk
    rcases eq_or_ne x idx with hxe | hnex
    · rcases eq_or_ne y idx with hye | hney
      · rw [hxe, hye]
      · rw [hxe, hkeysi, hkeys y hney] at hk2
        have hfy' : hash_is_full (t.meta.getD y 0) = true := by
          rwa [hmeta y hney] at hfy2
        exact absurd hk2.symm (hnokey y hy hfy')
    · rcases eq_or_ne y idx with hye | hney
      · rw [hye, hkeysi, hkeys x hnex] at hk2
        have hfx' : hash_is_full (t.meta.getD x 0) = true := by
          rwa [hmeta x hnex] at hfx2
        exact absurd hk2 (hnokey x hx hfx')
      · rw [hkeys x hnex, hkeys y hney] at hk2
        exact hwf.distinct x y hx hy (by rwa [hmeta x hnex] at hfx2)
          (by rwa [hmeta y hney] at hfy2) hk2

/-- Contents after the miss branch of `hash_put` (before the growth check):
the new pair is added, everything else is unchanged. -/
theorem mapsTo_put_miss {V : Type} [Inhabited V] {seed : Nat} {t : HTable V}
    (hwf : WF seed t) {key idx : Nat}
    (hnokey : ∀ i, i < capacity t → hash_is_full (t.meta.getD i 0) = true →
      t.keys.getD i 0 ≠ key % U64)
    (hidx : idx < capacity t)
    (hnf : hash_is_full (t.meta.getD idx 0) = false) (v : V) (k' : Nat)
    (v' : V) :
    mapsTo { t with
      meta := t.meta.set idx (hash__hash7 (hash__hash seed (key % U64)) ||| 0x80)
      keys := t.keys.set idx (key % U64)
      vals := t.vals.set idx v
      size := t.size + 1 } k' v' ↔
      ((k' = key % U64 ∧ v' = v) ∨ (k' ≠ key % U64 ∧ mapsTo t k' v')) := by
  set mask := hash__hash7 (hash__hash seed (key % U64)) ||| 0x80 with hmaskdef
  have hklen : t.keys.length = capacity t := hwf.klen
  have hvlen : t.vals.length = capacity t := hwf.vlen
  constructor
  · rintro ⟨j, hj, hfj, hkj, hvj⟩
    simp only [capacity, List.length_set] at hj
    rcases eq_or_ne j idx with rfl | hne
    · left
      refine ⟨?_, ?_⟩
      · rw [← hkj, getD_set_self _ _ (by omega)]
      · rw [← hvj, getD_set_self _ _ (by omega)]
    · rw [getD_set_ne _ _ (fun h => hne h.symm)] at hfj hkj
      rw [getD_set_ne _ _ (fun h => hne h.symm)] at hvj
      right
      refine ⟨?_, j, hj, hfj, hkj, hvj⟩
      rw [← hkj]
      exact hnokey j hj hfj
  · rintro (⟨rfl, rfl⟩ | ⟨hne, j, hj, hfj, hkj, hvj⟩)
    · refine ⟨idx, ?_, ?_, ?_, ?_⟩
      · simpa [capacity] using hidx
      · rw [getD_set_self _ _ hidx]
        exact or80_is_full _
      · rw [getD_set_self _ _ (by omega)]
      · rw [getD_set_self _ _ (by omega)]
    · have hjne : j ≠ idx := by
        intro h
        subst h
        rw [hfj] at hnf
        cases hnf
      refine ⟨j, by simpa [capacity] using hj, ?_, ?_, ?_⟩
      · rw [getD_set_ne _ _ (fun h => hjne h.symm)]
        exact hfj
      · rw [getD_set_ne _ _ (fun h => hjne h.symm)]
        exact hkj
      · rw [getD_set_ne _ _ (fun h => hjne h.symm)]
        exact hvj

/-- The table written by the hit branch of `hash_put` (value overwrite) is
well-formed. -/
theorem wf_put_hit {V : Type} [Inhabited V] {seed : Nat} {t : HTable V}
    (hwf : WF seed t) (idx : Nat) (v : V) :
    WF seed { t with vals := t.vals.set idx v } := by
  obtain ⟨h1, h2, h3, h4, h5, h6, h7⟩ := hwf
  exact ⟨by simpa [capacity] using h1, by simpa [capacity] using h2,
    by simpa [capacity] using h3, h4, h5, h6, h7⟩

/-- Contents after the hit branch of `hash_put`: the matched slot's value is
replaced, everything else is unchanged. -/
theorem mapsTo_put_hit {V : Type} [Inhabited V] {seed : Nat} {t : HTable V}
    (hwf : WF seed t) {key idx : Nat} (hidx : idx < capacity t)
    (hfull : hash_is_full (t.meta.getD idx 0) = true)
    (hkey : t.keys.getD idx 0 = key % U64) (v : V) (k' : Nat) (v' : V) :
    mapsTo { t with vals := t.vals.set idx v } k' v' ↔
      ((k' = key % U64 ∧ v' = v) ∨ (k' ≠ key % U64 ∧ mapsTo t k' v')) := by
  have hvlen : t.vals.length = capacity t := hwf.vlen
  constructor
  · rintro ⟨j, hj, hfj, hkj, hvj⟩
    simp only [capacity] at hj
    rcases eq_or_ne j idx with rfl | hne
    · left
      refine ⟨by rw [← hkj, hkey], ?_⟩
      rw [← hvj, getD_set_self _ _ (by omega)]
    · rw [getD_set_ne _ _ (fun h => hne h.symm)] at hvj
      right
      refine ⟨?_, j, hj, hfj, hkj, hvj⟩
      intro hk
      exact hne (hwf.distinct j idx hj hidx hfj hfull (by rw [hkj, hk, hkey]))
  · rintro (⟨rfl, rfl⟩ | ⟨hne, j, hj, hfj, hkj, hvj⟩)
    · refine ⟨idx, by simpa [capacity] using hidx, hfull, hkey, ?_⟩
      rw [getD_set_self _ _ (by omega)]
    · have hjne : j ≠ idx := by
        intro h
        subst h
        exact hne (hkj ▸ hkey ▸ rfl)
      refine ⟨j, by simpa [capacity] using hj, hfj, hkj, ?_⟩
      rw [getD_set_ne _ _ (fun h => hjne h.symm)]
      exact hvj

/-!  #  The rehash loop -/

/-- Main induction for `hash__rehash`: processing any suffix of indices
preserves the rehash invariant and the loop cannot fail, because the new
image always retains a Free slot (its Full count stays below `n`). -/
theorem rehashAux_spec {V : Type} [Inhabited V] {seed : Nat} {t : HTable V}
    {n gk2 : Nat} (hn : n = 16 * 2 ^ gk2)
    (httag : ∀ i, i < capacity t → hash_is_full (t.meta.getD i 0) = true →
      t.meta.getD i 0 =
        (hash__hash7 (hash__hash seed (t.keys.getD i 0)) ||| 0x80) ∧
        t.keys.getD i 0 < U64)
    (htdist : ∀ i j, i < capacity t → j < capacity t →
      hash_is_full (t.meta.getD i 0) = true →
      hash_is_full (t.meta.getD j 0) = true →
      t.keys.getD i 0 = t.keys.getD j 0 → i = j)
    (hcount : countFull t.meta < n) :
    ∀ (is : List Nat) (nt : HTable V), is.Nodup →
      (∀ i, i ∈ is → i < capacity t) →
      RehashInv seed t n is nt →
      ∃ r, rehashAux seed t is nt = some r ∧ RehashInv seed t n [] r ∧
        r.size = nt.size ∧ r.val_size = nt.val_size := by
  have hn2 : n = 2 ^ (gk2 + 4) := by rw [hn, Nat.pow_add]; ring
  have hG2pos : (0 : Nat) < 2 ^ gk2 := Nat.pos_pow_of_pos _ (by norm_num)
  have hnpos : 0 < n := by rw [hn2]; exact Nat.pos_pow_of_pos _ (by norm_num)
  have hndiv : n / 16 = 2 ^ gk2 := by
    rw [hn, Nat.mul_comm, Nat.mul_div_cancel _ (by norm_num)]
  intro is
  induction is with
  | nil =>
    intro nt _ _ hinv
    exact ⟨nt, rfl, hinv, rfl, rfl⟩
  | cons i rest ih =>
    intro nt hnodup hlt hinv
    have hicap : i < capacity t := hlt i (List.mem_cons_self i rest)
    have hinotrest : i ∉ rest := (List.nodup_cons.1 hnodup).1
    rw [rehashAux]
    by_cases hfi : hash_is_full (t.meta.getD i 0) = true
    · rw [if_pos hfi]
      -- abbreviations for the copied slot
      have hcntlt : countFull nt.meta < n := by
        have hc := hinv.count
        rw [List.countP_cons, if_pos (by simpa using hfi)] at hc
        omega
      -- a Free slot exists in the new image
      have hfree : ∃ x, x < n ∧ nt.meta.getD x 0 = 0 := by
        obtain ⟨x, hx, hxnf⟩ := exists_getD_of_countP_lt
          (fun b => hash_is_full b) nt.meta 0 (by
            have : nt.meta.length = n := hinv.cap
            rw [countFull] at hcntlt
            omega)
        have hx2 : x < n := by
          have : nt.meta.length = n := hinv.cap
          omega
        rcases hinv.notomb x hx2 with h0 | hfull
        · exact ⟨x, hx2, h0⟩
        · rw [hfull] at hxnf
          cases hxnf
      have hklen : t.keys.length = capacity t ∨ True := Or.inr trivial
      set k := t.keys.getD i 0 with hkdef
      set vv := t.vals.getD i default with hvvdef
      set mbyte := t.meta.getD i 0 with hmbdef
      set g0 := homeGroup seed n k with hg0def
      have hg0lt : g0 < 2 ^ gk2 := by
        rw [hg0def, homeGroup, hndiv]
        exact Nat.mod_lt _ hG2pos
      have hi0lt : 16 * g0 < n := by
        rw [hn]
        omega
      -- the first Free slot of the probe sequence from the new home group
      have hexD : ∃ d, nt.meta.getD ((16 * g0 + d) % n) 0 = 0 := by
        obtain ⟨x, hx, hx0⟩ := hfree
        refine ⟨(x + n - 16 * g0) % n, ?_⟩
        rw [group_add_dist hnpos hi0lt hx]
        exact hx0
      classical
      set d0 := Nat.find hexD with hd0def
      have hd0 : nt.meta.getD ((16 * g0 + d0) % n) 0 = 0 := Nat.find_spec hexD
      have hd0min : ∀ u, u < d0 → nt.meta.getD ((16 * g0 + u) % n) 0 ≠ 0 :=
        fun u hu => Nat.find_min hexD hu
      have hd0lt : d0 < n := by
        obtain ⟨x, hx, hx0⟩ := hfree
        have hw : nt.meta.getD ((16 * g0 + (x + n - 16 * g0) % n) % n) 0 = 0 := by
          rw [group_add_dist hnpos hi0lt hx]
          exact hx0
        exact Nat.lt_of_le_of_lt (Nat.find_min' hexD hw) (Nat.mod_lt _ hnpos)
      set idx := (16 * g0 + d0) % n with hidxdef
      have hidxlt : idx < n := Nat.mod_lt _ hnpos
      -- the placement loop finds `idx`
      have hrff : rehashFindFree nt.meta n n (16 * g0) = some idx := by
        have h1 := @rehashFindFree_found nt.meta n (gk2 + 4) hn2 d0
          (n - d0 - 1) (16 * g0) hd0min hd0
        rw [Nat.mod_eq_of_lt hi0lt,
          show d0 + (n - d0 - 1 + 1) = n from by omega] at h1
        exact h1
      have hstart2 : (hash__hash57 (hash__hash seed k) &&& (n / 16 - 1)) * 16 =
          16 * g0 := by
        rw [hndiv, land_mask, Nat.mul_comm, hg0def, homeGroup, hndiv]
      have hins : rehashInsert seed nt mbyte k vv = some { nt with
          meta := nt.meta.set idx mbyte
          keys := nt.keys.set idx k
          vals := nt.vals.set idx vv } := by
        rw [rehashInsert]
        simp only [hinv.cap]
        rw [hstart2, hrff]
      rw [hins]
      -- facts about the updated image
      have hmlen : nt.meta.length = n := hinv.cap
      have hmeta : ∀ j, j ≠ idx →
          (nt.meta.set idx mbyte).getD j 0 = nt.meta.getD j 0 :=
        fun j hj => getD_set_ne _ _ (fun h => hj h.symm)
      have hmetai : (nt.meta.set idx mbyte).getD idx 0 = mbyte :=
        getD_set_self _ _ (by rw [hmlen]; exact hidxlt)
      have hkeys2 : ∀ j, j ≠ idx →
          (nt.keys.set idx k).getD j 0 = nt.keys.getD j 0 :=
        fun j hj => getD_set_ne _ _ (fun h => hj h.symm)
      have hkeysi : (nt.keys.set idx k).getD idx 0 = k :=
        getD_set_self _ _ (by rw [hinv.klen]; exact hidxlt)
      have hvals2 : ∀ j, j ≠ idx →
          (nt.vals.set idx vv).getD j default = nt.vals.getD j default :=
        fun j hj => getD_set_ne _ _ (fun h => hj h.symm)
      have hvalsi : (nt.vals.set idx vv).getD idx default = vv :=
        getD_set_self _ _ (by rw [hinv.vlen]; exact hidxlt)
      have hfullnew : ∀ j, hash_is_full ((nt.meta.set idx mbyte).getD j 0) = true →
          (j = idx ∨ hash_is_full (nt.meta.getD j 0) = true) := by
        intro j hfj
        rcases eq_or_ne j idx with rfl | hne
        · exact Or.inl rfl
        · rw [hmeta j hne] at hfj
          exact Or.inr hfj
      have hidxfree : hash_is_full (nt.meta.getD idx 0) = false := by
        rw [hd0]
        decide
      have hcnew : countFull (nt.meta.set idx mbyte) = countFull nt.meta + 1 :=
        countP_mono_set _ nt.meta idx mbyte 0 (by rw [hmlen]; exact hidxlt)
          hfi hidxfree
      -- the invariant for the remaining indices
      have hinv' : RehashInv seed t n rest { nt with
          meta := nt.meta.set idx mbyte
          keys := nt.keys.set idx k
          vals := nt.vals.set idx vv } := by
        refine ⟨?_, ?_, ?_, ?_, ?_, ?_, ?_, ?_, ?_⟩
        · show (nt.meta.set idx mbyte).length = n
          rw [List.length_set]
          exact hmlen
        · show (nt.keys.set idx k).length = n
          rw [List.length_set]
          exact hinv.klen
        · show (nt.vals.set idx vv).length = n
          rw [List.length_set]
          exact hinv.vlen
        · intro x hx
          rcases eq_or_ne x idx with rfl | hne
          · rw [hmetai]
            exact Or.inr hfi
          · rw [hmeta x hne]
            exact hinv.notomb x hx
        · show countFull (nt.meta.set idx mbyte) +
            rest.countP (fun i => hash_is_full (t.meta.getD i 0)) = countFull t.meta
          rw [hcnew]
          have hc := hinv.count
          have hfi2 : hash_is_full (t.meta.getD i 0) = true := hmbdef ▸ hfi
          rw [List.countP_cons, if_pos (by simpa using hfi2)] at hc
          omega
        · intro x hx hfx
          dsimp only at hfx ⊢
          rcases eq_or_ne x idx with rfl | hne
          · rw [hmetai, hkeysi, hmbdef, hkdef]
            refine httag i hicap ?_
            rw [← hmbdef]
            exact hfi
          · rw [hmeta x hne] at hfx
            rw [hmeta x hne, hkeys2 x hne]
            exact hinv.tag x hx hfx
        · intro x hx hfx d hd
          dsimp only [capacity] at hx hfx hd ⊢
          rw [List.length_set, hmlen] at hx hd ⊢
          rcases eq_or_ne x idx with rfl | hne
          · rw [hkeysi] at hd ⊢
            rw [← hg0def] at hd ⊢
            have hpdx : probeDist n g0 idx = d0 := by
              rw [hidxdef, probeDist]
              exact probeDist_mod hnpos (le_of_lt hi0lt) hd0lt
            rw [hpdx] at hd
            rcases eq_or_ne ((16 * g0 + d) % n) idx with heq | hposne
            · rw [heq, hmetai]
              exact full_ne_zero hfi
            · rw [hmeta _ hposne]
              exact hd0min d hd
          · rw [hmeta x hne] at hfx
            rw [hkeys2 x hne] at hd ⊢
            have hold := hinv.probe x (by rw [hinv.cap]; exact hx) hfx d
              (by rw [hinv.cap]; exact hd)
            rw [hinv.cap] at hold
            rcases eq_or_ne ((16 * homeGroup seed n (nt.keys.getD x 0) + d) % n)
              idx with heq | hposne
            · rw [heq, hmetai]
              exact full_ne_zero hfi
            · rw [hmeta _ hposne]
              exact hold
        · intro k' v'
          constructor
          · rintro ⟨j, hj, hfj, hkj, hvj⟩
            dsimp only [capacity] at hj hfj hkj hvj
            rw [List.length_set, hmlen] at hj
            rcases eq_or_ne j idx with rfl | hne
            · rw [hkeysi] at hkj
              rw [hvalsi] at hvj
              refine ⟨i, hicap, hinotrest, hfi, ?_, ?_⟩
              · rw [← hkj, hkdef]
              · rw [← hvj, hvvdef]
            · rw [hmeta j hne] at hfj
              rw [hkeys2 j hne] at hkj
              rw [hvals2 j hne] at hvj
              have hmt : mapsTo nt k' v' :=
                ⟨j, by rw [hinv.cap]; exact hj, hfj, hkj, hvj⟩
              obtain ⟨i', hi', hni', hfi', hki', hvi'⟩ :=
                (hinv.contents k' v').1 hmt
              exact ⟨i', hi', fun hmem => hni' (List.mem_cons_of_mem i hmem),
                hfi', hki', hvi'⟩
          · rintro ⟨i', hi', hni', hfi', hki', hvi'⟩
            rcases eq_or_ne i' i with rfl | hne
            · refine ⟨idx, ?_, ?_, ?_, ?_⟩
              · show idx < (nt.meta.set idx mbyte).length
                rw [List.length_set, hmlen]
                exact hidxlt
              · show hash_is_full ((nt.meta.set idx mbyte).getD idx 0) = true
                rw [hmetai]
                exact hfi
              · show (nt.keys.set idx k).getD idx 0 = k'
                rw [hkeysi]
                exact hki'
              · show (nt.vals.set idx vv).getD idx default = v'
                rw [hvalsi]
                exact hvi'
            · have hni2 : i' ∉ i :: rest := by
                intro hmem
                rcases List.mem_cons.1 hmem with h | h
                · exact hne h
                · exact hni' h
              obtain ⟨j, hj, hfj, hkj, hvj⟩ :=
                (hinv.contents k' v').2 ⟨i', hi', hni2, hfi', hki', hvi'⟩
              have hjn : j < n := by rw [← hinv.cap]; exact hj
              have hjne : j ≠ idx := by
                intro h
                subst h
                rw [hfj] at hidxfree
                cases hidxfree
              refine ⟨j, ?_, ?_, ?_, ?_⟩
              · show j < (nt.meta.set idx mbyte).length
                rw [List.length_set, hmlen]
                exact hjn
              · show hash_is_full ((nt.meta.set idx mbyte).getD j 0) = true
                rw [hmeta j hjne]
                exact hfj
              · show (nt.keys.set idx k).getD j 0 = k'
                rw [hkeys2 j hjne]
                exact hkj
              · show (nt.vals.set idx vv).getD j default = v'
                rw [hvals2 j hjne]
                exact hvj
        · intro x y hx hy hfx hfy hk2
          dsimp only at hfx hfy hk2
          have hnotk : ∀ z, z < n → hash_is_full (nt.meta.getD z 0) = true →
              nt.keys.getD z 0 ≠ k := by
            intro z hz hfz hkz
            have hmt : mapsTo nt k (nt.vals.getD z default) :=
              ⟨z, by rw [hinv.cap]; exact hz, hfz, hkz, rfl⟩
            obtain ⟨i', hi', hni', hfi', hki', _⟩ := (hinv.contents _ _).1 hmt
            have hii : i' = i := htdist i' i hi' hicap hfi' hfi
              (by rw [hki', hkdef])
            rw [hii] at hni'
            exact hni' (List.mem_cons_self i rest)
          rcases eq_or_ne x idx with hxe | hnex
          · rcases eq_or_ne y idx with hye | hney
            · rw [hxe, hye]
            · rw [hxe, hkeysi, hkeys2 y hney] at hk2
              rw [hmeta y hney] at hfy
              exact absurd hk2.symm (hnotk y hy hfy)
          · rcases eq_or_ne y idx with hye | hney
            · rw [hye, hkeysi, hkeys2 x hnex] at hk2
              rw [hmeta x hnex] at hfx
              exact absurd hk2 (hnotk x hx hfx)
            · rw [hkeys2 x hnex, hkeys2 y hney] at hk2
              rw [hmeta x hnex] at hfx
              rw [hmeta y hney] at hfy
              exact hinv.distinct x y hx hy hfx hfy hk2
      obtain ⟨r, hrun, hinvr, hsz, hvs⟩ := ih _ (List.nodup_cons.1 hnodup).2
        (fun j hj => hlt j (List.mem_cons_of_mem i hj)) hinv'
      exact ⟨r, hrun, hinvr, hsz, hvs⟩
    · rw [if_neg hfi]
      have hinv' : RehashInv seed t n rest nt := by
        obtain ⟨h1, h2, h3, h4, h5, h6, h7, h8, h9⟩ := hinv
        refine ⟨h1, h2, h3, h4, ?_, h6, h7, ?_, h9⟩
        · rw [List.countP_cons, if_neg (by simpa using hfi)] at h5
          simpa using h5
        · intro k' v'
          rw [h8 k' v']
          constructor
          · rintro ⟨i', hi', hni', hfi', hki', hvi'⟩
            exact ⟨i', hi', fun hmem => hni' (List.mem_cons_of_mem i hmem),
              hfi', hki', hvi'⟩
          · rintro ⟨i', hi', hni', hfi', hki', hvi'⟩
            have hne : i' ≠ i := by
              intro h
              subst h
              exact hfi hfi'
            exact ⟨i', hi', by
              intro hmem
              rcases List.mem_cons.1 hmem with h | h
              · exact hne h
              · exact hni' h, hfi', hki', hvi'⟩
      exact ih _ (List.nodup_cons.1 hnodup).2
        (fun j hj => hlt j (List.mem_cons_of_mem i hj)) hinv'

/-- `hash__resize` to a capacity that can hold all Full slots succeeds and
preserves size, value width, and contents; the new image has no
Tombstones. -/
theorem resize_spec {V : Type} [Inhabited V] {seed : Nat} {t : HTable V}
    (hwf : WF seed t) {n gk2 : Nat} (hn : n = 16 * 2 ^ gk2)
    (hcount : countFull t.meta < n) :
    ∃ r, hash__resize seed t n = some r ∧ WF seed r ∧ capacity r = n ∧
      r.size = t.size ∧ r.val_size = t.val_size ∧
      (∀ k v, mapsTo r k v ↔ mapsTo t k v) ∧ countTomb r.meta = 0 := by
  have hrepl : ∀ (x : Nat), x < n → (List.replicate n (0 : Nat)).getD x 0 = 0 :=
    fun x hx => getD_replicate _ _ hx
  have hinv0 : RehashInv seed t n (List.range (capacity t))
      { meta := List.replicate n 0, keys := List.replicate n 0,
        vals := List.replicate n default, size := t.size,
        val_size := t.val_size } := by
    refine ⟨?_, ?_, ?_, ?_, ?_, ?_, ?_, ?_, ?_⟩
    · simp [capacity]
    · simp
    · simp
    · intro x hx
      exact Or.inl (hrepl x hx)
    · show countFull (List.replicate n 0) + _ = _
      have h0 : countFull (List.replicate n 0) = 0 := by
        rw [countFull, List.countP_eq_zero]
        intro b hb
        rw [List.eq_of_mem_replicate hb]
        decide
      rw [h0, Nat.zero_add]
      exact countP_range_getD 0 (fun b => hash_is_full b) t.meta
    · intro x hx hfx
      dsimp only at hfx
      rw [hrepl x hx] at hfx
      exact absurd hfx (by decide)
    · intro x hx hfx
      dsimp only [capacity] at hx hfx
      rw [List.length_replicate] at hx
      rw [hrepl x hx] at hfx
      exact absurd hfx (by decide)
    · intro k v
      constructor
      · rintro ⟨j, hj, hfj, _, _⟩
        dsimp only [capacity] at hj hfj
        rw [List.length_replicate] at hj
        rw [hrepl j hj] at hfj
        exact absurd hfj (by decide)
      · rintro ⟨i', hi', hni', _, _, _⟩
        exact absurd (List.mem_range.2 hi') hni'
    · intro x y hx hy hfx hfy
      dsimp only at hfx
      rw [hrepl x hx] at hfx
      exact absurd hfx (by decide)
  obtain ⟨r, hrun, hinvr, hsz, hvs⟩ := rehashAux_spec hn hwf.tag hwf.distinct
    hcount (List.range (capacity t)) _ (List.nodup_range _)
    (fun i hi => List.mem_range.1 hi) hinv0
  have hcapr : capacity r = n := hinvr.cap
  have hcntr : countFull r.meta = countFull t.meta := by
    have := hinvr.count
    simpa using this
  refine ⟨r, hrun, ?_, hcapr, hsz, hvs, ?_, ?_⟩
  · refine ⟨by rw [hinvr.klen, hcapr], by rw [hinvr.vlen, hcapr],
      ⟨gk2, by rw [hcapr, hn]⟩, ?_, ?_, hinvr.probe, ?_⟩
    · rw [hsz, hwf.size_eq, ← hcntr]
    · intro i hi hfi
      exact hinvr.tag i (by rw [← hcapr]; exact hi) hfi
    · intro i j hi hj hfi hfj hk
      exact hinvr.distinct i j (by rw [← hcapr]; exact hi)
        (by rw [← hcapr]; exact hj) hfi hfj hk
  · intro k v
    rw [hinvr.contents k v]
    constructor
    · rintro ⟨i', hi', _, hfi', hki', hvi'⟩
      exact ⟨i', hi', hfi', hki', hvi'⟩
    · rintro ⟨i', hi', hfi', hki', hvi'⟩
      exact ⟨i', hi', List.not_mem_nil i', hfi', hki', hvi'⟩
  · rw [countTomb, List.countP_eq_zero]
    intro b hb
    obtain ⟨x, hx, rfl⟩ := List.mem_iff_getElem.1 hb
    have hx2 : x < n := by
      have : r.meta.length = n := hinvr.cap
      omega
    have hgd : r.meta.getD x 0 = r.meta[x] := by
      rw [List.getD_eq_getElem?_getD, List.getElem?_eq_getElem hx]
      rfl
    rcases hinvr.notomb x hx2 with h0 | hfull
    · rw [hgd] at h0
      simp [h0, HASH__TOMB]
    · rw [hgd] at hfull
      intro hc
      have hb1 : r.meta[x] = 1 := by simpa [HASH__TOMB] using hc
      rw [hb1] at hfull
      exact absurd hfull (by decide)

/-- The growth check at the end of `hash_put` always completes, preserves
contents, and doubles the capacity exactly when the load threshold
`size ≥ (capacity/4)*3` has been reached. -/
theorem checkGrow_spec {V : Type} [Inhabited V] {seed : Nat} {t : HTable V}
    (hwf : WF seed t) :
    ∃ r, checkGrow seed t = some r ∧ WF seed r ∧ r.size = t.size ∧
      r.val_size = t.val_size ∧ (∀ k v, mapsTo r k v ↔ mapsTo t k v) ∧
      ((capacity t / 4) * 3 ≤ t.size → capacity r = capacity t * 2) ∧
      (¬ (capacity t / 4) * 3 ≤ t.size → r = t) := by
  by_cases hth : (capacity t / 4) * 3 ≤ t.size
  · obtain ⟨gk, hcap⟩ := hwf.cap_pow
    have hn : capacity t * 2 = 16 * 2 ^ (gk + 1) := by
      rw [hcap, Nat.pow_succ]
      ring
    have hcnt : countFull t.meta < capacity t * 2 := by
      have h1 : countFull t.meta ≤ capacity t := List.countP_le_length _
      have h2 : 0 < capacity t := by
        rw [hcap]
        positivity
      omega
    obtain ⟨r, hr, hwfr, hcapr, hsz, hvs, hmt, _⟩ := resize_spec hwf hn hcnt
    refine ⟨r, ?_, hwfr, hsz, hvs, hmt, fun _ => hcapr, fun hc => absurd hth hc⟩
    rw [checkGrow, if_pos hth]
    exact hr
  · refine ⟨t, ?_, hwf, rfl, rfl, fun _ _ => Iff.rfl, fun hc => absurd hc hth,
      fun _ => rfl⟩
    rw [checkGrow, if_neg hth]

/-!  #  `hash_get`, `hash_put`, `hash_reserve` top-level specifications -/

/-- `hash_get` returns the stored value of a present key. -/
theorem getT_of_mapsTo {V : Type} [Inhabited V] {seed : Nat} {t : HTable V}
    (hwf : WF seed t) {key : Nat} {v : V} (hmt : mapsTo t (key % U64) v) :
    hash_getT seed t key = some (some v) := by
  obtain ⟨i, hi, hfull, hki, hvi⟩ := hmt
  have hfind : hash__get_idx seed t (key % U64) = some (some i) := by
    rw [← hki]
    exact get_idx_finds hwf hi hfull
  rw [hash_getT, hfind]
  show some (some (t.vals.getD i default)) = some (some v)
  rw [hvi]

/-- `hash_get` returns `NULL` for an absent key when a Free byte exists. -/
theorem getT_absent {V : Type} [Inhabited V] {seed : Nat} {t : HTable V}
    (hwf : WF seed t) {key : Nat}
    (habs : ∀ v : V, ¬ mapsTo t (key % U64) v) (hfree : hasFree t = true) :
    hash_getT seed t key = some none := by
  have hnokey : ∀ i, i < capacity t → hash_is_full (t.meta.getD i 0) = true →
      t.keys.getD i 0 ≠ key % U64 := by
    intro i hi hfi hk
    exact habs (t.vals.getD i default) ⟨i, hi, hfi, hk, rfl⟩
  rw [hash_getT, get_idx_absent hwf hnokey hfree]

/-- With no Free byte and an absent key, the probe loop of `hash__get_idx`
exhausts its exact fuel: the C loop never exits. -/
theorem get_idx_stuck {V : Type} {seed : Nat} {t : HTable V} (hwf : WF seed t)
    {key : Nat}
    (hnokey : ∀ i, i < capacity t → hash_is_full (t.meta.getD i 0) = true →
      t.keys.getD i 0 ≠ key)
    (hfree : hasFree t = false) :
    hash__get_idx seed t key = none := by
  obtain ⟨gk, hcap⟩ := hwf.cap_pow
  obtain ⟨_, hdiv, hGpos, _⟩ := cap_pow_facts hcap
  have hnofree : ∀ x, x < capacity t → t.meta.getD x 0 ≠ 0 := by
    intro x hx h0
    have : hasFree t = true := by
      rw [hasFree, any_iff_exists_getD]
      exact ⟨x, hx, h0⟩
    rw [this] at hfree
    cases hfree
  show getIdxAux t.meta t.keys (capacity t) key
      (hash__hash7 (hash__hash seed key) ||| 0x80) (capacity t / 16)
      ((hash__hash57 (hash__hash seed key) &&& (capacity t / 16 - 1)) * 16) =
      none
  rw [grpidx_eq_home hcap, Nat.mul_comm]
  refine getIdx_diverge_list hcap rfl (homeGroup_lt hdiv (hdiv ▸ hGpos)) ?_ _
  intro u hu
  set g0 := homeGroup seed (capacity t) key
  have hguG : (g0 + u) % 2 ^ gk < 2 ^ gk := Nat.mod_lt _ (hdiv ▸ hGpos)
  have hne : ∀ j, j < 16 → t.meta.getD (16 * ((g0 + u) % 2 ^ gk) + j) 0 ≠ 0 := by
    intro j hj
    apply hnofree
    rw [hcap]
    omega
  constructor
  · rw [grpMatch, bitScan_eq_none]
    intro j _ hj16
    rw [Nat.zero_add] at hj16
    by_contra hc
    rw [Bool.not_eq_false, Bool.and_eq_true] at hc
    have hmeta : t.meta.getD (16 * ((g0 + u) % 2 ^ gk) + j) 0 =
        (hash__hash7 (hash__hash seed key) ||| 0x80) := by simpa using hc.1
    have hkey2 : t.keys.getD (16 * ((g0 + u) % 2 ^ gk) + j) 0 = key := by
      simpa using hc.2
    have hsm : 16 * ((g0 + u) % 2 ^ gk) + j < capacity t := by
      rw [hcap]
      omega
    exact hnokey _ hsm (by rw [hmeta]; exact or80_is_full _) hkey2
  · have hnone : bitScan (fun j =>
        t.meta.getD (16 * ((g0 + u) % 2 ^ gk) + j) 0 == 0) 16 0 = none := by
      rw [bitScan_eq_none]
      intro j _ hj16
      rw [Nat.zero_add] at hj16
      simpa using hne j hj16
    rw [grpHasFree, hnone]
    rfl

/-- Full specification of `hash_put` on a present key: the value is
overwritten in place, then the growth check runs on the unchanged size. -/
theorem putT_hit_spec {V : Type} [Inhabited V] {seed : Nat} {t : HTable V}
    (hwf : WF seed t) {key i : Nat} (hi : i < capacity t)
    (hfull : hash_is_full (t.meta.getD i 0) = true)
    (hkey : t.keys.getD i 0 = key % U64) (v : V) :
    ∃ t2, hash_putT seed t key v = some t2 ∧ WF seed t2 ∧ t2.size = t.size ∧
      t2.val_size = t.val_size ∧
      (∀ k' v', mapsTo t2 k' v' ↔
        ((k' = key % U64 ∧ v' = v) ∨ (k' ≠ key % U64 ∧ mapsTo t k' v'))) ∧
      ((capacity t / 4) * 3 ≤ t.size → capacity t2 = capacity t * 2) ∧
      (¬ (capacity t / 4) * 3 ≤ t.size →
        t2 = { t with vals := t.vals.set i v }) := by
  have hfind : hash__get_idx seed t (key % U64) = some (some i) := by
    rw [← hkey]
    exact get_idx_finds hwf hi hfull
  have hwfw : WF seed { t with vals := t.vals.set i v } := wf_put_hit hwf i v
  obtain ⟨r, hg, hwfr, hszr, hvsr, hmtr, hgrow, hsame⟩ := checkGrow_spec hwfw
  have hcapw : capacity { t with vals := t.vals.set i v } = capacity t := rfl
  have hszw : HTable.size { t with vals := t.vals.set i v } = t.size := rfl
  refine ⟨r, ?_, hwfr, by rw [hszr], by rw [hvsr], ?_, ?_, ?_⟩
  · rw [hash_putT, hfind]
    exact hg
  · intro k' v'
    rw [hmtr k' v']
    exact mapsTo_put_hit hwf hi hfull hkey v k' v'
  · intro hth
    rw [hgrow (by rw [hcapw, hszw]; exact hth), hcapw]
  · intro hth
    exact hsame (by rw [hcapw, hszw]; exact hth)

/-- Full specification of `hash_put` on an absent key (with a Free byte so
the probes exit): the pair is written into the first Free-or-Tombstone slot
of its probe sequence, `size` increments, then the growth check runs. -/
theorem putT_miss_spec {V : Type} [Inhabited V] {seed : Nat} {t : HTable V}
    (hwf : WF seed t) {key : Nat}
    (hnokey : ∀ i, i < capacity t → hash_is_full (t.meta.getD i 0) = true →
      t.keys.getD i 0 ≠ key % U64)
    (hfree : hasFree t = true) (v : V) :
    ∃ t2, hash_putT seed t key v = some t2 ∧ WF seed t2 ∧
      t2.size = t.size + 1 ∧ t2.val_size = t.val_size ∧
      (∀ k' v', mapsTo t2 k' v' ↔
        ((k' = key % U64 ∧ v' = v) ∨ (k' ≠ key % U64 ∧ mapsTo t k' v'))) ∧
      ((capacity t / 4) * 3 ≤ t.size + 1 → capacity t2 = capacity t * 2) ∧
      (¬ (capacity t / 4) * 3 ≤ t.size + 1 → capacity t2 = capacity t) := by
  obtain ⟨gk, hcap⟩ := hwf.cap_pow
  have hmiss : hash__get_idx seed t (key % U64) = some none :=
    get_idx_absent hwf hnokey hfree
  have hnonfull : ∃ x, x < capacity t ∧
      hash_is_full (t.meta.getD x 0) = false := by
    rw [hasFree, any_iff_exists_getD] at hfree
    obtain ⟨x, hx, h0⟩ := hfree
    exact ⟨x, hx, by rw [h0]; decide⟩
  obtain ⟨idx, hft, hidx, hnf, hpre⟩ :=
    get_freetomb_spec hcap (key % U64) hnonfull
  set tw : HTable V := { t with
    meta := t.meta.set idx (hash__hash7 (hash__hash seed (key % U64)) ||| 0x80)
    keys := t.keys.set idx (key % U64)
    vals := t.vals.set idx v
    size := t.size + 1 } with htwdef
  have hwfw : WF seed tw := wf_put_miss hwf hnokey hidx hnf hpre v
  obtain ⟨r, hg, hwfr, hszr, hvsr, hmtr, hgrow, hsame⟩ := checkGrow_spec hwfw
  have hcapw : capacity tw = capacity t := by
    rw [htwdef]
    show (t.meta.set idx _).length = _
    rw [List.length_set]
    rfl
  have hszw : tw.size = t.size + 1 := rfl
  refine ⟨r, ?_, hwfr, by rw [hszr, hszw], by rw [hvsr], ?_, ?_, ?_⟩
  · rw [hash_putT, hmiss, hft]
    exact hg
  · intro k' v'
    rw [hmtr k' v']
    exact mapsTo_put_miss hwf hnokey hidx hnf v k' v'
  · intro hth
    rw [hgrow (by rw [hcapw, hszw]; exact hth), hcapw]
  · intro hth
    have := hsame (by rw [hcapw, hszw]; exact hth)
    rw [this, hcapw]

/-- With no Free byte and an absent key, `hash_put` never exits its first
probe loop. -/
theorem putT_stuck {V : Type} [Inhabited V] {seed : Nat} {t : HTable V}
    (hwf : WF seed t) {key : Nat}
    (hnokey : ∀ i, i < capacity t → hash_is_full (t.meta.getD i 0) = true →
      t.keys.getD i 0 ≠ key % U64)
    (hfree : hasFree t = false) (v : V) :
    hash_putT seed t key v = none := by
  rw [hash_putT, get_idx_stuck hwf hnokey hfree]

/-- With no Free byte and an absent key, `hash_del` never exits its probe
loop. -/
theorem delT_stuck {V : Type} [Inhabited V] {seed : Nat} {t : HTable V}
    (hwf : WF seed t) {key : Nat}
    (hnokey : ∀ i, i < capacity t → hash_is_full (t.meta.getD i 0) = true →
      t.keys.getD i 0 ≠ key % U64)
    (hfree : hasFree t = false) (fv : Bool) :
    hash_delT seed t key fv = none := by
  rw [hash_delT, get_idx_stuck hwf hnokey hfree]

/-- With no Free byte and an absent key, `hash_get` never exits its probe
loop. -/
theorem getT_stuck {V : Type} [Inhabited V] {seed : Nat} {t : HTable V}
    (hwf : WF seed t) {key : Nat}
    (hnokey : ∀ i, i < capacity t → hash_is_full (t.meta.getD i 0) = true →
      t.keys.getD i 0 ≠ key % U64)
    (hfree : hasFree t = false) :
    hash_getT seed t key = none := by
  rw [hash_getT, get_idx_stuck hwf hnokey hfree]

/-- The `true_cap` doubling loop of `hash_reserve` exits, for a requested
capacity of at most `2 ^ 63`, with a power of two at least `cap`; it
returns its start value unchanged or a value below `2 * cap`.  (Below
`2 ^ 63` the wrap mod `2 ^ 64` never fires.) -/
theorem trueCapLoop_spec (cap : Nat) (hcap : cap ≤ 2 ^ 63) :
    ∀ fuel tc a, tc = 2 ^ a → cap ≤ tc * 2 ^ fuel →
      ∃ e, trueCapLoop cap (fuel + 1) tc = some (2 ^ e) ∧ cap ≤ 2 ^ e ∧
        (2 ^ e = tc ∨ 2 ^ e < 2 * cap) := by
  intro fuel
  induction fuel with
  | zero =>
    intro tc a htc hle
    rw [Nat.pow_zero, Nat.mul_one] at hle
    rw [trueCapLoop, if_neg (by omega)]
    refine ⟨a, by rw [htc], ?_, Or.inl htc.symm⟩
    rw [← htc]
    exact hle
  | succ f ih =>
    intro tc a htc hle
    by_cases hlt : tc < cap
    · rw [trueCapLoop, if_pos hlt]
      have hasmall : a + 1 ≤ 63 := by
        by_contra hc
        push_neg at hc
        have h1 : (2 : Nat) ^ 63 ≤ 2 ^ a :=
          Nat.pow_le_pow_right (by norm_num) (by omega)
        rw [← htc] at h1
        exact absurd (Nat.lt_of_lt_of_le hlt hcap) (Nat.not_lt.mpr h1)
      have h2 : tc * 2 = 2 ^ (a + 1) := by rw [htc, Nat.pow_succ]
      have hmod : tc * 2 % U64 = tc * 2 := by
        refine Nat.mod_eq_of_lt ?_
        rw [h2]
        refine Nat.lt_of_le_of_lt
          (Nat.pow_le_pow_right (by norm_num) hasmall) ?_
        show (2 : Nat) ^ 63 < U64
        decide
      rw [hmod]
      have hle2 : cap ≤ tc * 2 * 2 ^ f := by
        rw [Nat.mul_assoc, Nat.mul_comm 2 (2 ^ f), ← Nat.pow_succ]
        exact hle
      obtain ⟨e, he, hc2, hmin⟩ := ih (tc * 2) (a + 1) h2 hle2
      refine ⟨e, he, hc2, ?_⟩
      rcases hmin with h | h
      · right
        rw [h]
        omega
      · exact Or.inr h
    · rw [trueCapLoop, if_neg hlt]
      refine ⟨a, by rw [htc], ?_, Or.inl htc.symm⟩
      rw [← htc]
      omega

/-- For a requested capacity above `2 ^ 63`, the `size_t` doubling loop of
`hash_reserve` never exits: from any state that is 0 or a power of two at
most `2 ^ 63` — in particular from the start value 1 — every state stays
strictly below `cap` (the shift past `2 ^ 63` wraps to 0), so the loop
consumes any amount of fuel. -/
theorem trueCapLoop_diverge {cap : Nat} (hcap : 2 ^ 63 < cap) :
    ∀ fuel tc, (tc = 0 ∨ ∃ a, a ≤ 63 ∧ tc = 2 ^ a) → tc < cap →
      trueCapLoop cap fuel tc = none := by
  intro fuel
  induction fuel with
  | zero =>
    intro tc _ _
    rfl
  | succ f ih =>
    intro tc hform hlt
    rw [trueCapLoop, if_pos hlt]
    have hnew : tc * 2 % U64 = 0 ∨ ∃ a, a ≤ 63 ∧ tc * 2 % U64 = 2 ^ a := by
      rcases hform with rfl | ⟨a, ha, rfl⟩
      · left
        rw [Nat.zero_mul]
        exact Nat.zero_mod _
      · rcases Nat.lt_or_ge a 63 with h | h
        · right
          refine ⟨a + 1, by omega, ?_⟩
          rw [← Nat.pow_succ]
          refine Nat.mod_eq_of_lt ?_
          refine Nat.lt_of_le_of_lt
            (Nat.pow_le_pow_right (by norm_num) (show a + 1 ≤ 63 by omega)) ?_
          show (2 : Nat) ^ 63 < U64
          decide
        · have ha63 : a = 63 := by omega
          subst ha63
          left
          rw [← Nat.pow_succ]
          show (2 : Nat) ^ 64 % 2 ^ 64 = 0
          exact Nat.mod_self _
    have hlt2 : tc * 2 % U64 < cap := by
      rcases hnew with h0 | ⟨b, hb, he⟩
      · rw [h0]
        exact Nat.lt_of_le_of_lt (Nat.zero_le _) hcap
      · rw [he]
        exact Nat.lt_of_le_of_lt (Nat.pow_le_pow_right (by norm_num) hb) hcap
    exact ih _ hnew hlt2

/-- Specification of `hash_reserve` on a non-null handle, with the request
truncated to `size_t`: a no-op when the request does not exceed the
capacity; growth to the smallest power of two meeting the request —
preserving contents and size and discarding all Tombstones — when the
request is at most `2 ^ 63`; and a doubling loop that never exits when the
request is larger (the `size_t` shift wraps to 0). -/
theorem reserveT_spec {V : Type} [Inhabited V] {seed vsz : Nat} {t : HTable V}
    (hwf : WF seed t) (n : Nat) :
    (n % U64 ≤ capacity t → hash_reserve seed vsz (some t) n = some t) ∧
    (capacity t < n % U64 → n % U64 ≤ 2 ^ 63 →
      ∃ r, hash_reserve seed vsz (some t) n = some r ∧
      WF seed r ∧ r.size = t.size ∧ r.val_size = t.val_size ∧
      (∀ k v, mapsTo r k v ↔ mapsTo t k v) ∧ countTomb r.meta = 0 ∧
      (∃ e, capacity r = 2 ^ e) ∧ n % U64 ≤ capacity r ∧
      (∀ p, (∃ e2, p = 2 ^ e2) → n % U64 ≤ p → capacity r ≤ p)) ∧
    (capacity t < n % U64 → 2 ^ 63 < n % U64 →
      hash_reserve seed vsz (some t) n = none) := by
  obtain ⟨gk, hcap⟩ := hwf.cap_pow
  have hcap16 : 16 ≤ capacity t := by
    rw [hcap]
    have h0 : (1 : Nat) ≤ 2 ^ gk := Nat.one_le_two_pow
    omega
  refine ⟨?_, ?_, ?_⟩
  · intro hle
    rw [hash_reserve]
    simp only [Option.getD_some]
    rw [if_neg (by omega)]
  · intro hgt hsmall
    have hc1 : 1 ≤ n % U64 := by omega
    have hfuel : n % U64 ≤ 1 * 2 ^ (n % U64 - 1) := by
      rw [Nat.one_mul]
      have h1 := Nat.lt_two_pow (n % U64 - 1)
      omega
    obtain ⟨e, he, hge, hmin⟩ :=
      trueCapLoop_spec (n % U64) hsmall (n % U64 - 1) 1 0 (by norm_num) hfuel
    have he2 : trueCapLoop (n % U64) (n % U64) 1 = some (2 ^ e) := by
      rw [show n % U64 - 1 + 1 = n % U64 from by omega] at he
      exact he
    have he5 : 5 ≤ e := by
      by_contra hc
      push_neg at hc
      have h1 : (2 : Nat) ^ e ≤ 2 ^ 4 :=
        Nat.pow_le_pow_right (by norm_num) (by omega)
      have h2 : (2 : Nat) ^ 4 = 16 := by norm_num
      omega
    have hform : (2 : Nat) ^ e = 16 * 2 ^ (e - 4) := by
      rw [show (16 : Nat) = 2 ^ 4 from by norm_num, ← Nat.pow_add]
      congr 1
      omega
    have hcnt : countFull t.meta < 2 ^ e := by
      have h1 : countFull t.meta ≤ capacity t := List.countP_le_length _
      omega
    obtain ⟨r, hrun, hwfr, hcapr, hsz, hvs, hmt, htomb⟩ :=
      resize_spec hwf hform hcnt
    refine ⟨r, ?_, hwfr, hsz, hvs, hmt, htomb, ⟨e, hcapr⟩,
      by rw [hcapr]; exact hge, ?_⟩
    · rw [hash_reserve]
      simp only [Option.getD_some]
      rw [if_pos hgt, he2]
      show hash__resize seed t (2 ^ e) = some r
      exact hrun
    · rintro p ⟨e2, rfl⟩ hnp
      rw [hcapr]
      rcases Nat.lt_or_ge e2 e with h | h
      case inr => exact Nat.pow_le_pow_right (by norm_num) h
      · have h1 : (2 : Nat) ^ e2 ≤ 2 ^ (e - 1) :=
          Nat.pow_le_pow_right (by norm_num) (by omega)
        have h2 : (2 : Nat) ^ (e - 1) * 2 = 2 ^ e := by
          rw [← Nat.pow_succ]
          congr 1
          omega
        have h3 : (2 : Nat) ^ e < 2 * (n % U64) := by
          rcases hmin with hm | hm
          · omega
          · exact hm
        omega
  · intro hgt hbig
    rw [hash_reserve]
    simp only [Option.getD_some]
    rw [if_pos hgt,
      trueCapLoop_diverge hbig (n % U64) 1 (Or.inr ⟨0, by omega, by norm_num⟩)
        (Nat.lt_of_le_of_lt (by norm_num) hbig)]

/-!  #  Association-list model lemmas -/

theorem specLookup_nil {V : Type} (k : Nat) :
    specLookup ([] : List (Nat × V)) k = none := rfl

theorem specLookup_cons {V : Type} (sm : List (Nat × V)) (key k' : Nat)
    (v : V) (hk' : k' < U64) :
    specLookup ((key % U64, v) :: sm) k' =
      if k' = key % U64 then some v else specLookup sm k' := by
  unfold specLookup
  rw [Nat.mod_eq_of_lt hk']
  by_cases h : k' = key % U64
  · rw [if_pos h]
    rw [List.find?_cons_of_pos _ (by simp [h])]
    rfl
  · rw [if_neg h]
    rw [List.find?_cons_of_neg _ (by simp [Ne.symm h])]

theorem specLookup_filter {V : Type} (sm : List (Nat × V)) (key k' : Nat)
    (hk' : k' < U64) :
    specLookup (sm.filter (fun p => !(p.1 == key % U64))) k' =
      if k' = key % U64 then none else specLookup sm k' := by
  induction sm with
  | nil =>
    by_cases h : k' = key % U64 <;> simp [specLookup, h]
  | cons a sm ih =>
    rw [List.filter_cons]
    by_cases ha : (a.1 == key % U64) = true
    · rw [if_neg (by simp [ha])]
      rw [ih]
      rcases eq_or_ne k' (key % U64) with h | h
      · rw [if_pos h, if_pos h]
      · rw [if_neg h, if_neg h]
        have ha2 : a.1 = key % U64 := by simpa using ha
        unfold specLookup
        rw [List.find?_cons_of_neg _ (by
          simp [ha2, Nat.mod_eq_of_lt hk']
          exact fun hc => h hc.symm)]
    · rw [if_pos (by simp [ha])]
      have ha2 : a.1 ≠ key % U64 := by simpa using ha
      by_cases hpa : (a.1 == k' % U64) = true
      · have hak : a.1 = k' := by
          have := hpa
          rw [Nat.mod_eq_of_lt hk'] at this
          simpa using this
        have hne : k' ≠ key % U64 := by
          rw [← hak]
          exact ha2
        rw [if_neg hne]
        have hfp : ∀ l : List (Nat × V),
            List.find? (fun q => q.1 == k' % U64) (a :: l) = some a :=
          fun l => List.find?_cons_of_pos l hpa
        unfold specLookup
        rw [hfp, hfp]
      · have hfn : ∀ l : List (Nat × V),
            List.find? (fun q => q.1 == k' % U64) (a :: l) =
              List.find? (fun q => q.1 == k' % U64) l :=
          fun l => List.find?_cons_of_neg l hpa
        have hskip : ∀ l : List (Nat × V),
            specLookup (a :: l) k' = specLookup l k' := by
          intro l
          unfold specLookup
          rw [hfn]
        rw [hskip, hskip, ih]

/-!  #  One-step simulation -/

/-- The empty table simulates the empty history. -/
theorem sim_init {V : Type} [Inhabited V] (seed vsz : Nat) :
    Sim seed (some (hash__init V vsz)) [] := by
  refine ⟨wf_init seed vsz, ?_⟩
  intro k hk v
  constructor
  · intro hmt
    exact absurd hmt (not_mapsTo_init vsz k v)
  · intro hsp
    rw [specLookup_nil] at hsp
    cases hsp

/-- Each public operation that completes normally preserves the simulation
between the handle and the association-list model. -/
theorem step_sim {V : Type} [Inhabited V] {seed vsz : Nat}
    {s s' : Option (HTable V)} {sm : List (Nat × V)} {op : Op V}
    (hsim : Sim seed s sm) (hstep : step seed vsz s op = some s') :
    Sim seed s' (specStep sm op) := by
  cases op with
  | put key v =>
    -- normalize the possibly-null handle to a table simulating `sm`
    have hred : ∃ t : HTable V, WF seed t ∧
        (∀ k, k < U64 → ∀ w, (mapsTo t k w ↔ specLookup sm k = some w)) ∧
        step seed vsz s (Op.put key v) =
          (hash_putT seed t key v).map some := by
      cases s with
      | none =>
        obtain ⟨hwf0, hrel0⟩ := sim_init (V := V) seed vsz
        refine ⟨hash__init V vsz, hwf0, ?_, rfl⟩
        rw [show sm = [] from hsim]
        exact hrel0
      | some t => exact ⟨t, hsim.1, hsim.2, rfl⟩
    obtain ⟨t, hwf, hrel, hstep2⟩ := hred
    rw [hstep2] at hstep
    by_cases hp : ∃ i, i < capacity t ∧ hash_is_full (t.meta.getD i 0) = true ∧
      t.keys.getD i 0 = key % U64
    · obtain ⟨i, hi, hfull, hkey⟩ := hp
      obtain ⟨t2, hput, hwf2, _, _, hmt2, _, _⟩ :=
        putT_hit_spec hwf hi hfull hkey v
      rw [hput] at hstep
      obtain rfl : some t2 = s' := by simpa using hstep
      refine ⟨hwf2, ?_⟩
      intro k hk w
      rw [hmt2 k w, show specStep sm (Op.put key v) = (key % U64, v) :: sm
        from rfl, specLookup_cons sm key k v hk]
      rcases eq_or_ne k (key % U64) with h | h
      · simp [h, eq_comm]
      · simp [h, hrel k hk w]
    · have hnokey : ∀ i, i < capacity t →
          hash_is_full (t.meta.getD i 0) = true →
          t.keys.getD i 0 ≠ key % U64 := by
        intro i hi hfi hk
        exact hp ⟨i, hi, hfi, hk⟩
      by_cases hfree : hasFree t = true
      · obtain ⟨t2, hput, hwf2, _, _, hmt2, _, _⟩ :=
          putT_miss_spec hwf hnokey hfree v
        rw [hput] at hstep
        obtain rfl : some t2 = s' := by simpa using hstep
        refine ⟨hwf2, ?_⟩
        intro k hk w
        rw [hmt2 k w, show specStep sm (Op.put key v) = (key % U64, v) :: sm
          from rfl, specLookup_cons sm key k v hk]
        rcases eq_or_ne k (key % U64) with h | h
        · simp [h, eq_comm]
        · simp [h, hrel k hk w]
      · rw [putT_stuck hwf hnokey (by simpa using hfree) v] at hstep
        cases hstep
  | del key fv =>
    cases s with
    | none => cases hstep
    | some t =>
      obtain ⟨hwf, hrel⟩ := hsim
      have hstep2 : (hash_delT seed t key fv).map
          (fun r => some r.2) = some s' := hstep
      by_cases hp : ∃ i, i < capacity t ∧
          hash_is_full (t.meta.getD i 0) = true ∧
          t.keys.getD i 0 = key % U64
      · obtain ⟨i, hi, hfull, hkey⟩ := hp
        rw [delT_hit hwf hi hfull hkey fv] at hstep2
        obtain rfl : some { t with meta := t.meta.set i HASH__TOMB, size := t.size - 1 } = s' := by
          simpa using hstep2
        refine ⟨wf_del hwf hi hfull, ?_⟩
        intro k hk w
        rw [mapsTo_del hwf hi hfull k w,
          show specStep sm (Op.del key fv) =
            sm.filter (fun p => !(p.1 == key % U64)) from rfl,
          specLookup_filter sm key k hk]
        rcases eq_or_ne k (key % U64) with h | h
        · rw [if_pos h]
          constructor
          · rintro ⟨_, hne⟩
            exact absurd (by rw [hkey, ← h]) (Ne.symm hne)
          · intro hc
            cases hc
        · rw [if_neg h]
          rw [← hrel k hk w]
          constructor
          · rintro ⟨hmt, _⟩
            exact hmt
          · intro hmt
            refine ⟨hmt, ?_⟩
            rw [hkey]
            exact h
      · have hnokey : ∀ i, i < capacity t →
            hash_is_full (t.meta.getD i 0) = true →
            t.keys.getD i 0 ≠ key % U64 := by
          intro i hi hfi hk
          exact hp ⟨i, hi, hfi, hk⟩
        by_cases hfree : hasFree t = true
        · rw [delT_miss hwf hnokey hfree fv] at hstep2
          obtain rfl : some t = s' := by simpa using hstep2
          refine ⟨hwf, ?_⟩
          intro k hk w
          rw [show specStep sm (Op.del key fv) =
            sm.filter (fun p => !(p.1 == key % U64)) from rfl,
            specLookup_filter sm key k hk]
          rcases eq_or_ne k (key % U64) with h | h
          · rw [if_pos h]
            constructor
            · intro hmt
              rw [h] at hmt
              obtain ⟨i, hi, hfull, hki, _⟩ := hmt
              exact absurd ⟨i, hi, hfull, hki⟩ hp
            · intro hc
              cases hc
          · rw [if_neg h]
            exact hrel k hk w
        · rw [delT_stuck hwf hnokey (by simpa using hfree) fv] at hstep2
          cases hstep2
  | reserve n =>
    have hred : ∃ t : HTable V, WF seed t ∧
        (∀ k, k < U64 → ∀ w, (mapsTo t k w ↔ specLookup sm k = some w)) ∧
        step seed vsz s (Op.reserve n) =
          (hash_reserve seed vsz (some t) n).map some := by
      cases s with
      | none =>
        obtain ⟨hwf0, hrel0⟩ := sim_init (V := V) seed vsz
        refine ⟨hash__init V vsz, hwf0, ?_, rfl⟩
        rw [show sm = [] from hsim]
        exact hrel0
      | some t => exact ⟨t, hsim.1, hsim.2, rfl⟩
    obtain ⟨t, hwf, hrel, hstep2⟩ := hred
    rw [hstep2] at hstep
    obtain ⟨hle, hgrow, hdiv⟩ := @reserveT_spec V _ seed vsz t hwf n
    rcases Nat.lt_or_ge (capacity t) (n % U64) with h | h
    · rcases Nat.lt_or_ge (2 ^ 63) (n % U64) with hbig | hsmall
      · rw [hdiv h hbig] at hstep
        simp at hstep
      · obtain ⟨r, hrun, hwfr, _, _, hmt, _, _, _, _⟩ := hgrow h hsmall
        rw [hrun] at hstep
        obtain rfl : some r = s' := by simpa using hstep
        refine ⟨hwfr, ?_⟩
        intro k hk w
        rw [show specStep sm (Op.reserve n) = sm from rfl, hmt k w]
        exact hrel k hk w
    · rw [hle h] at hstep
      obtain rfl : some t = s' := by simpa using hstep
      exact ⟨hwf, hrel⟩

/-- Running any operation sequence that completes normally yields a state
simulating the association-list model of the sequence. -/
theorem runFrom_sim {V : Type} [Inhabited V] {seed vsz : Nat} :
    ∀ (ops : List (Op V)) (s : Option (HTable V)) (sm : List (Nat × V))
      (s' : Option (HTable V)), Sim seed s sm →
      runFrom seed vsz s ops = some s' →
      Sim seed s' (ops.foldl specStep sm) := by
  intro ops
  induction ops with
  | nil =>
    intro s sm s' hsim hrun
    obtain rfl : s = s' := by simpa [runFrom] using hrun
    exact hsim
  | cons op ops ih =>
    intro s sm s' hsim hrun
    rw [runFrom] at hrun
    cases hstep : step seed vsz s op with
    | none => rw [hstep] at hrun; cases hrun
    | some s1 =>
      rw [hstep] at hrun
      exact ih s1 (specStep sm op) s' (step_sim hsim hstep) hrun

/-- `run` simulation from the null handle. -/
theorem run_sim {V : Type} [Inhabited V] {seed vsz : Nat} {ops : List (Op V)}
    {s' : Option (HTable V)} (hrun : run seed vsz ops = some s') :
    Sim seed s' (specRun ops) :=
  runFrom_sim ops none [] s' rfl hrun

/-!  #  The claims -/

/-- C1, counterexample.  `badOps` is a legal put/del/reserve sequence from a
null handle in which key 25 is never inserted, reaching `badTable`; the
claim says `hash_get(25)` then returns absent (`some none` in the model),
but the probe loop of `hash__get_idx` exhausts its fuel instead (`none`):
the C loop runs forever (the unbounded divergence is proved in
`C2_load_factor_refuted`). -/
theorem C1_counterexample :
    run hash__seed 8 badOps = some (some badTable) ∧
    specLookup (specRun badOps) 25 = none ∧
    hash_getT hash__seed badTable 25 = none ∧
    hash_getT hash__seed badTable 25 ≠ some none := by
  refine ⟨by decide, by decide, by decide, by decide⟩

/-- C1, amended: for every operation sequence from a null handle that the
code completes (every probe loop exits) and that ends in a table, `hash_get`
returns the most recent value written for a present key; for an absent key
it returns absent provided the table still has a Free metadata byte (without
that proviso the probe loop can run forever, see `C1_counterexample`). -/
theorem C1_get_returns_latest {V : Type} [Inhabited V] {vsz : Nat}
    {ops : List (Op V)} {t : HTable V}
    (hrun : run hash__seed vsz ops = some (some t))
    {key : Nat} (hk : key < U64) :
    (∀ v, specLookup (specRun ops) key = some v →
      hash_getT hash__seed t key = some (some v)) ∧
    (specLookup (specRun ops) key = none → hasFree t = true →
      hash_getT hash__seed t key = some none) := by
  obtain ⟨hwf, hmt⟩ := run_sim hrun
  have hkm : key % U64 = key := Nat.mod_eq_of_lt hk
  constructor
  · intro v hv
    have hm : mapsTo t key v := (hmt key hk v).2 hv
    exact getT_of_mapsTo hwf (by rw [hkm]; exact hm)
  · intro hnone hfree
    refine getT_absent hwf ?_ hfree
    intro v hmtv
    rw [hkm] at hmtv
    have h2 := (hmt key hk v).1 hmtv
    rw [hnone] at h2
    exact Option.noConfusion h2

/-- C1, witness for `C1_get_returns_latest`: the twelve-key scenario table,
key 5. -/
theorem C1_get_returns_latest_witness :
    run hash__seed 8 ops12 = some (some table12) ∧ (5 : Nat) < U64 ∧
    ((∀ v, specLookup (specRun ops12) 5 = some v →
      hash_getT hash__seed table12 5 = some (some v)) ∧
    (specLookup (specRun ops12) 5 = none → hasFree table12 = true →
      hash_getT hash__seed table12 5 = some none)) :=
  ⟨by decide, by decide,
    C1_get_returns_latest
      (show run hash__seed 8 ops12 = some (some table12) by decide)
      (by decide)⟩

/-- C2, refuted (code bug).  The header of hash.h asserts that the resize
policy guarantees at least one empty (Free) slot, so the probe loop of
`hash__get_idx` must terminate.  `badTable` is reachable from a null handle
by `badOps`, satisfies the load invariant `size ≤ (capacity / 4) * 3`
(23 ≤ 24), yet has no Free byte at all: deletions turned Free bytes into
Tombstones, which the load check never counts.  Probing for the absent key
25 then never exits: `getIdxAux` returns `none` for EVERY fuel, because the
16 probe groups repeat with period `capacity / 16` and no group has a match
or a Free byte. -/
theorem C2_load_factor_refuted :
    run hash__seed 8 badOps = some (some badTable) ∧
    badTable.size ≤ (capacity badTable / 4) * 3 ∧
    hasFree badTable = false ∧
    specLookup (specRun badOps) 25 = none ∧
    (∀ fuel, getIdxAux badTable.meta badTable.keys (capacity badTable) 25
      (hash__hash7 (hash__hash hash__seed 25) ||| 0x80) fuel
      ((hash__hash57 (hash__hash hash__seed 25) &&&
        (capacity badTable / 16 - 1)) * 16) = none) ∧
    hash_getT hash__seed badTable 25 = none := by
  refine ⟨by decide, by decide, by decide, by decide, ?_, by decide⟩
  intro fuel
  have hstart : (hash__hash57 (hash__hash hash__seed 25) &&&
      (capacity badTable / 16 - 1)) * 16 =
      16 * (hash__hash57 (hash__hash hash__seed 25) % 2) := by decide
  rw [hstart]
  exact @getIdx_diverge_list badTable.meta badTable.keys (capacity badTable)
    2 1 25 (hash__hash7 (hash__hash hash__seed 25) ||| 0x80)
    (hash__hash57 (hash__hash hash__seed 25) % 2)
    (by decide) (by norm_num) (Nat.mod_lt _ (by norm_num)) (by decide) fuel

/-- C3, counterexample.  On a null handle (address 0) `hash_get` and
`hash_del` start by dereferencing `hash__get_info(map)->val_size`, i.e. the
24 bytes below address 0 — they do not return absent / false; and
`hash_free` passes `hash__get_base(NULL)`, the non-null address -24, to the
aligned free routine — not a no-op.  (`hash_size` / `hash_capacity` do
check for null.) -/
theorem C3_counterexample :
    hash__get_info_addr 0 = -24 ∧ hash__get_info_addr 0 ≠ 0 ∧
    hash_free_arg 0 (hash_capacityH (none : Option (HTable Nat))) = -24 ∧
    hash_free_arg 0 (hash_capacityH (none : Option (HTable Nat))) ≠ 0 := by
  refine ⟨by decide, by decide, by decide, by decide⟩

/-- C3, amended: on a null handle `hash_size` and `hash_capacity` return 0,
and `hash_put` allocates a fresh table of capacity `HASH__START_CAPACITY`
and performs the insertion, the new value being retrievable; but `hash_get`,
`hash_del` and `hash_free` do NOT handle a null handle (see
`C3_counterexample`). -/
theorem C3_null_handle {V : Type} [Inhabited V] (vsz key : Nat) (v : V) :
    hash_sizeH (none : Option (HTable V)) = 0 ∧
    hash_capacityH (none : Option (HTable V)) = 0 ∧
    ∃ t2, hash_put hash__seed vsz none key v = some t2 ∧
      capacity t2 = HASH__START_CAPACITY ∧ t2.size = 1 ∧
      hash_getT hash__seed t2 key = some (some v) := by
  refine ⟨rfl, rfl, ?_⟩
  have hwf0 : WF hash__seed (hash__init V vsz) := wf_init hash__seed vsz
  have hnokey : ∀ i, i < capacity (hash__init V vsz) →
      hash_is_full ((hash__init V vsz).meta.getD i 0) = true →
      (hash__init V vsz).keys.getD i 0 ≠ key % U64 := by
    intro i hi hfi
    rw [meta_init] at hfi
    exact absurd hfi (by decide)
  obtain ⟨t2, hput, hwf2, hsz, _, hmt, _, hnog⟩ :=
    putT_miss_spec hwf0 hnokey (hasFree_init vsz) v
  have hcap2 : capacity t2 = capacity (hash__init V vsz) := by
    refine hnog ?_
    rw [capacity_init]
    show ¬ 16 / 4 * 3 ≤ 0 + 1
    decide
  refine ⟨t2, hput, ?_, ?_, ?_⟩
  · rw [hcap2, capacity_init]
    rfl
  · rw [hsz]
    rfl
  · exact getT_of_mapsTo hwf2 ((hmt _ _).2 (Or.inl ⟨rfl, rfl⟩))

/-- C4, confirmed: on a well-formed table with a Free byte, `hash_put`
completes, the written value is immediately visible through `hash_get` on
the resulting table (also in the step that triggers growth), and the
capacity doubles exactly when, AFTER the write, the post-write size reaches
the threshold `(capacity / 4) * 3`. -/
theorem C4_put_then_grow {V : Type} [Inhabited V] {seed : Nat} {t : HTable V}
    (hwf : WF seed t) (hfree : hasFree t = true) (key : Nat) (v : V) :
    ∃ t2, hash_putT seed t key v = some t2 ∧
      hash_getT seed t2 key = some (some v) ∧
      ((capacity t / 4) * 3 ≤ t2.size → capacity t2 = capacity t * 2) ∧
      (¬ (capacity t / 4) * 3 ≤ t2.size → capacity t2 = capacity t) := by
  by_cases hpres : ∃ i, i < capacity t ∧
      hash_is_full (t.meta.getD i 0) = true ∧ t.keys.getD i 0 = key % U64
  · obtain ⟨i, hi, hfull, hkey⟩ := hpres
    obtain ⟨t2, hput, hwf2, hsz, _, hmt, hgrow, hsame⟩ :=
      putT_hit_spec hwf hi hfull hkey v
    refine ⟨t2, hput, ?_, ?_, ?_⟩
    · exact getT_of_mapsTo hwf2 ((hmt _ _).2 (Or.inl ⟨rfl, rfl⟩))
    · intro hth
      rw [hsz] at hth
      exact hgrow hth
    · intro hth
      rw [hsz] at hth
      rw [hsame hth]
      rfl
  · have hnokey : ∀ i, i < capacity t →
        hash_is_full (t.meta.getD i 0) = true →
        t.keys.getD i 0 ≠ key % U64 :=
      fun i hi hf hk => hpres ⟨i, hi, hf, hk⟩
    obtain ⟨t2, hput, hwf2, hsz, _, hmt, hgrow, hnog⟩ :=
      putT_miss_spec hwf hnokey hfree v
    refine ⟨t2, hput, ?_, ?_, ?_⟩
    · exact getT_of_mapsTo hwf2 ((hmt _ _).2 (Or.inl ⟨rfl, rfl⟩))
    · intro hth
      rw [hsz] at hth
      exact hgrow hth
    · intro hth
      rw [hsz] at hth
      exact hnog hth

/-- C4, witness for `C4_put_then_grow`: inserting the twelfth key into the
eleven-key table reaches the threshold 12 = (16 / 4) * 3, so this very
insertion doubles the capacity and the value is still visible. -/
theorem C4_put_then_grow_witness :
    WF hash__seed table11 ∧ hasFree table11 = true ∧
    (∃ t2, hash_putT hash__seed table11 11 (110 : Nat) = some t2 ∧
      hash_getT hash__seed t2 11 = some (some 110) ∧
      ((capacity table11 / 4) * 3 ≤ t2.size →
        capacity t2 = capacity table11 * 2) ∧
      (¬ (capacity table11 / 4) * 3 ≤ t2.size →
        capacity t2 = capacity table11)) := by
  have hwf : WF hash__seed table11 :=
    (run_sim (show run hash__seed 8 ops11 = some (some table11) by decide)).1
  exact ⟨hwf, by decide, C4_put_then_grow hwf (by decide) 11 110⟩

/-- C5, counterexample.  Inserting keys 0..11 (value = key * 10) from a null
handle with the default seed leaves size 12, but the capacity is NOT 16: the
twelfth insertion reaches the post-write threshold 12 = (16 / 4) * 3 and
doubles the capacity. -/
theorem C5_counterexample :
    run hash__seed 8 ops12 = some (some table12) ∧
    table12.size = 12 ∧ capacity table12 ≠ 16 := by
  refine ⟨by decide, by decide, by decide⟩

/-- C5, amended: after inserting keys 0..11 with value = key * 10 all twelve
keys are retrievable and size is 12, but the capacity has grown to 32. -/
theorem C5_twelve_keys :
    run hash__seed 8 ops12 = some (some table12) ∧
    table12.size = 12 ∧ capacity table12 = 32 ∧
    ∀ k, k < 12 → hash_getT hash__seed table12 k = some (some (k * 10)) := by
  refine ⟨by decide, by decide, by decide, by decide⟩

/-- C6, confirmed: from a well-formed table, whenever `hash_put`,
`hash_del`, `hash_reserve` or the growth check of `hash_put` completes, the
resulting table again satisfies `ProbeOk`: every Full slot lies on the probe
sequence of its own key, with no Free byte at any earlier probe position. -/
theorem C6_probe_invariant {V : Type} [Inhabited V] {seed vsz : Nat}
    {t : HTable V} (hwf : WF seed t) :
    (∀ (key : Nat) (v : V) t2, hash_putT seed t key v = some t2 →
      ProbeOk seed t2) ∧
    (∀ (key : Nat) (fv b : Bool) t2,
      hash_delT seed t key fv = some (b, t2) → ProbeOk seed t2) ∧
    (∀ (n : Nat) t2, hash_reserve seed vsz (some t) n = some t2 →
      ProbeOk seed t2) ∧
    (∀ t2, checkGrow seed t = some t2 → ProbeOk seed t2) := by
  obtain ⟨gk, hcap⟩ := hwf.cap_pow
  refine ⟨?_, ?_, ?_, ?_⟩
  · intro key v t2 h
    by_cases hpres : ∃ i, i < capacity t ∧
        hash_is_full (t.meta.getD i 0) = true ∧ t.keys.getD i 0 = key % U64
    · obtain ⟨i, hi, hfull, hkey⟩ := hpres
      obtain ⟨t2a, hput, hwf2, _, _, _, _, _⟩ := putT_hit_spec hwf hi hfull hkey v
      rw [h] at hput
      obtain rfl := Option.some.inj hput
      exact hwf2.probe
    · have hnokey : ∀ i, i < capacity t →
          hash_is_full (t.meta.getD i 0) = true →
          t.keys.getD i 0 ≠ key % U64 :=
        fun i hi hf hk => hpres ⟨i, hi, hf, hk⟩
      cases hfc : hasFree t with
      | false =>
        rw [putT_stuck hwf hnokey hfc v] at h
        exact Option.noConfusion h
      | true =>
        obtain ⟨t2a, hput, hwf2, _, _, _, _, _⟩ :=
          putT_miss_spec hwf hnokey hfc v
        rw [h] at hput
        obtain rfl := Option.some.inj hput
        exact hwf2.probe
  · intro key fv b t2 h
    cases hidx : hash__get_idx seed t (key % U64) with
    | none =>
      have hd : hash_delT seed t key fv = none := by
        rw [hash_delT, hidx]
      rw [hd] at h
      exact Option.noConfusion h
    | some o =>
      cases o with
      | none =>
        have hd : hash_delT seed t key fv = some (false, t) := by
          rw [hash_delT, hidx]
        rw [hd] at h
        have h2 := Option.some.inj h
        have ht : t = t2 := congrArg Prod.snd h2
        rw [← ht]
        exact hwf.probe
      | some idx =>
        obtain ⟨hilt, hmeta, hkeyi⟩ := get_idx_sound hcap hidx
        have hfull : hash_is_full (t.meta.getD idx 0) = true := by
          rw [hmeta]
          exact or80_is_full _
        have hd := delT_hit hwf hilt hfull hkeyi fv
        rw [hd] at h
        have h2 := Option.some.inj h
        have ht : { t with meta := t.meta.set idx HASH__TOMB, size := t.size - 1 } = t2 := congrArg Prod.snd h2
        rw [← ht]
        exact (wf_del hwf hilt hfull).probe
  · intro n t2 h
    obtain ⟨h1, h2, h3⟩ := @reserveT_spec V _ seed vsz t hwf n
    rcases Nat.lt_or_ge (capacity t) (n % U64) with hgt | hle
    · rcases Nat.lt_or_ge (2 ^ 63) (n % U64) with hbig | hsmall
      · rw [h3 hgt hbig] at h
        exact Option.noConfusion h
      · obtain ⟨r, hr, hwfr, _, _, _, _, _, _, _⟩ := h2 hgt hsmall
        rw [h] at hr
        obtain rfl := Option.some.inj hr
        exact hwfr.probe
    · rw [h1 hle] at h
      obtain rfl := Option.some.inj h
      exact hwf.probe
  · intro t2 h
    obtain ⟨r, hg, hwfr, _, _, _, _, _⟩ := checkGrow_spec hwf
    rw [h] at hg
    obtain rfl := Option.some.inj hg
    exact hwfr.probe

/-- C6, witness for `C6_probe_invariant`: the twelve-key scenario table. -/
theorem C6_probe_invariant_witness :
    WF hash__seed table12 ∧
    ((∀ (key : Nat) (v : Nat) t2,
      hash_putT hash__seed table12 key v = some t2 →
      ProbeOk hash__seed t2) ∧
    (∀ (key : Nat) (fv b : Bool) t2,
      hash_delT hash__seed table12 key fv = some (b, t2) →
      ProbeOk hash__seed t2) ∧
    (∀ (n : Nat) t2, hash_reserve hash__seed 8 (some table12) n = some t2 →
      ProbeOk hash__seed t2) ∧
    (∀ t2, checkGrow hash__seed table12 = some t2 →
      ProbeOk hash__seed t2)) := by
  have hwf : WF hash__seed table12 :=
    (run_sim (show run hash__seed 8 ops12 = some (some table12) by decide)).1
  exact ⟨hwf, C6_probe_invariant hwf⟩

/-- C7, confirmed: `hash__resize` of a well-formed table to a larger (or
equal) power-of-two capacity holding all Full slots completes and preserves
the key to value correspondence exactly — same size, every present pair
still present, nothing new — and discards every Tombstone. -/
theorem C7_growth_preserves {V : Type} [Inhabited V] {seed : Nat}
    {t : HTable V} (hwf : WF seed t) (n gk2 : Nat) (hn : n = 16 * 2 ^ gk2)
    (hcnt : countFull t.meta < n) :
    ∃ r, hash__resize seed t n = some r ∧ r.size = t.size ∧
      (∀ k v, mapsTo r k v ↔ mapsTo t k v) ∧ countTomb r.meta = 0 ∧
      capacity r = n := by
  obtain ⟨r, hr, _, hcapr, hsz, _, hmt, htomb⟩ := resize_spec hwf hn hcnt
  exact ⟨r, hr, hsz, hmt, htomb, hcapr⟩

/-- C7, witness for `C7_growth_preserves`: resizing the twelve-key table to
capacity 64. -/
theorem C7_growth_preserves_witness :
    WF hash__seed table12 ∧ (64 : Nat) = 16 * 2 ^ 2 ∧
    countFull table12.meta < 64 ∧
    (∃ r, hash__resize hash__seed table12 64 = some r ∧
      r.size = table12.size ∧
      (∀ k v, mapsTo r k v ↔ mapsTo table12 k v) ∧
      countTomb r.meta = 0 ∧ capacity r = 64) := by
  have hwf : WF hash__seed table12 :=
    (run_sim (show run hash__seed 8 ops12 = some (some table12) by decide)).1
  exact ⟨hwf, by norm_num, by decide,
    C7_growth_preserves hwf 64 2 (by norm_num) (by decide)⟩

/-- C8, counterexample.  In the reachable table `badTable`, deleting the
present key 1 does return `true`, mark the slot and drop `size` by one —
but the subsequent `hash_get(1)` does NOT return absent: with every Free
byte long consumed, its probe loop never exits (modelled by `none`; compare
`C2_load_factor_refuted`). -/
theorem C8_counterexample :
    run hash__seed 8 badOps = some (some badTable) ∧
    hash_delT hash__seed badTable 1 false = some (true, badDel) ∧
    badDel.size + 1 = badTable.size ∧
    hash_getT hash__seed badDel 1 = none ∧
    hash_getT hash__seed badDel 1 ≠ some none := by
  refine ⟨by decide, by decide, by decide, by decide, by decide⟩

/-- C8, amended: on a well-formed table that still has a Free metadata byte,
`hash_del` of a present key returns `true`, writes `HASH__TOMB` over the
matched metadata byte and decrements `size` by exactly one, and the
subsequent `hash_get` of that key returns absent; `hash_del` of an absent
key returns `false` and leaves the table untouched.  Without the Free-byte
proviso the absent-key probe, and the `hash_get` after a deletion, can run
forever (see `C8_counterexample`). -/
theorem C8_del_semantics {V : Type} [Inhabited V] {seed : Nat} {t : HTable V}
    (hwf : WF seed t) (key : Nat) (fv : Bool) (hfree : hasFree t = true) :
    (∀ i, i < capacity t → hash_is_full (t.meta.getD i 0) = true →
        t.keys.getD i 0 = key % U64 →
      ∃ t2, hash_delT seed t key fv = some (true, t2) ∧
        t.size = t2.size + 1 ∧ t2.meta.getD i 0 = HASH__TOMB ∧
        hash_getT seed t2 key = some none) ∧
    ((∀ i, i < capacity t → hash_is_full (t.meta.getD i 0) = true →
        t.keys.getD i 0 ≠ key % U64) →
      hash_delT seed t key fv = some (false, t)) := by
  constructor
  · intro i hi hfull hkey
    refine ⟨_, delT_hit hwf hi hfull hkey fv, ?_, ?_, ?_⟩
    · have hpos : 0 < t.size := by
        rw [hwf.size_eq, countFull, List.countP_pos]
        have hilen : i < t.meta.length := hi
        refine ⟨t.meta.getD i 0, ?_, hfull⟩
        rw [List.getD_eq_getElem?_getD, List.getElem?_eq_getElem hilen]
        exact List.getElem_mem hilen
      show t.size = t.size - 1 + 1
      omega
    · exact getD_set_self _ _ hi
    · have hwf2 := wf_del hwf hi hfull
      have habs : ∀ v : V,
          ¬ mapsTo { t with meta := t.meta.set i HASH__TOMB, size := t.size - 1 } (key % U64) v := by
        intro v hv
        have hmd := (mapsTo_del hwf hi hfull (key % U64) v).1 hv
        exact hmd.2 hkey.symm
      have hfree2 : hasFree { t with meta := t.meta.set i HASH__TOMB, size := t.size - 1 } = true := by
        rw [hasFree, any_iff_exists_getD]
        rw [hasFree, any_iff_exists_getD] at hfree
        obtain ⟨j, hj, hj0⟩ := hfree
        have hne : j ≠ i := by
          intro he
          rw [he] at hj0
          exact full_ne_zero hfull hj0
        refine ⟨j, ?_, ?_⟩
        · show j < (t.meta.set i HASH__TOMB).length
          rw [List.length_set]
          exact hj
        · show (t.meta.set i HASH__TOMB).getD j 0 = 0
          rw [getD_set_ne _ _ (fun hh => hne hh.symm)]
          exact hj0
      exact getT_absent hwf2 habs hfree2
  · intro hnokey
    exact delT_miss hwf hnokey hfree fv

/-- C8, witness for `C8_del_semantics`: the twelve-key scenario table,
key 5 (stored at slot 18). -/
theorem C8_del_semantics_witness :
    WF hash__seed table12 ∧ hasFree table12 = true ∧
    ((∀ i, i < capacity table12 →
        hash_is_full (table12.meta.getD i 0) = true →
        table12.keys.getD i 0 = 5 % U64 →
      ∃ t2, hash_delT hash__seed table12 5 false = some (true, t2) ∧
        table12.size = t2.size + 1 ∧ t2.meta.getD i 0 = HASH__TOMB ∧
        hash_getT hash__seed t2 5 = some none) ∧
    ((∀ i, i < capacity table12 →
        hash_is_full (table12.meta.getD i 0) = true →
        table12.keys.getD i 0 ≠ 5 % U64) →
      hash_delT hash__seed table12 5 false = some (false, table12))) := by
  have hwf : WF hash__seed table12 :=
    (run_sim (show run hash__seed 8 ops12 = some (some table12) by decide)).1
  exact ⟨hwf, by decide, C8_del_semantics hwf 5 false (by decide)⟩

/-- C9, counterexample.  On a null handle (capacity 0), `hash_reserve` with
requested capacity 1 neither does nothing (1 > 0) nor grows to the smallest
power of two at least 1 (which is 2 ^ 0 = 1): it first initializes the
handle to `HASH__START_CAPACITY = 16` and, since 1 ≤ 16, stops there. -/
theorem C9_counterexample :
    hash_capacityH (none : Option (HTable Nat)) = 0 ∧
    hash_reserve hash__seed 8 (none : Option (HTable Nat)) 1 =
      some (hash__init Nat 8) ∧
    capacity (hash__init Nat 8) = 16 ∧
    (2 : Nat) ^ 0 = 1 ∧ (1 : Nat) ≤ 2 ^ 0 ∧ (2 : Nat) ^ 0 < 16 := by
  refine ⟨by decide, by decide, by decide, by decide, by decide, by decide⟩

/-- C9, amended: a null handle is first initialized to the start capacity
16 and reserve then proceeds on that fresh table.  On a (well-formed)
non-null table, with the request truncated to `size_t` (mod `2 ^ 64`):
reserve does nothing when the request does not exceed the capacity; when it
does and is at most `2 ^ 63`, the table grows to the smallest power of two
that meets the request — preserving size and every key to value pair, and
discarding all Tombstones (the new metadata starts all-Free, see
`hash__resize`); for a request above `2 ^ 63` the `size_t` doubling loop
`true_cap <<= 1` wraps to 0 and never exits, for every fuel. -/
theorem C9_reserve_semantics {V : Type} [Inhabited V] {seed vsz : Nat}
    {t : HTable V} (hwf : WF seed t) (n : Nat) :
    hash_reserve seed vsz (none : Option (HTable V)) n =
      hash_reserve seed vsz (some (hash__init V vsz)) n ∧
    (n % U64 ≤ capacity t → hash_reserve seed vsz (some t) n = some t) ∧
    (capacity t < n % U64 → n % U64 ≤ 2 ^ 63 →
      ∃ r, hash_reserve seed vsz (some t) n = some r ∧
      r.size = t.size ∧ (∀ k v, mapsTo r k v ↔ mapsTo t k v) ∧
      countTomb r.meta = 0 ∧ (∃ e, capacity r = 2 ^ e) ∧
      n % U64 ≤ capacity r ∧
      (∀ p, (∃ e2, p = 2 ^ e2) → n % U64 ≤ p → capacity r ≤ p)) ∧
    (capacity t < n % U64 → 2 ^ 63 < n % U64 →
      hash_reserve seed vsz (some t) n = none ∧
      ∀ fuel, trueCapLoop (n % U64) fuel 1 = none) := by
  obtain ⟨h1, h2, h3⟩ := @reserveT_spec V _ seed vsz t hwf n
  refine ⟨rfl, h1, ?_, ?_⟩
  · intro hgt hsmall
    obtain ⟨r, hr, _, hsz, _, hmt, htomb, hpow, hge, hmin⟩ := h2 hgt hsmall
    exact ⟨r, hr, hsz, hmt, htomb, hpow, hge, hmin⟩
  · intro hgt hbig
    refine ⟨h3 hgt hbig, ?_⟩
    intro fuel
    exact trueCapLoop_diverge hbig fuel 1
      (Or.inr ⟨0, by omega, by norm_num⟩)
      (Nat.lt_of_le_of_lt (by norm_num) hbig)

/-- C9, witness for `C9_reserve_semantics`: reserving 100 slots on the
twelve-key table (capacity 32) grows it to 128. -/
theorem C9_reserve_semantics_witness :
    WF hash__seed table12 ∧
    (hash_reserve hash__seed 8 (none : Option (HTable Nat)) 100 =
      hash_reserve hash__seed 8 (some (hash__init Nat 8)) 100 ∧
    (100 % U64 ≤ capacity table12 →
      hash_reserve hash__seed 8 (some table12) 100 = some table12) ∧
    (capacity table12 < 100 % U64 → 100 % U64 ≤ 2 ^ 63 → ∃ r,
      hash_reserve hash__seed 8 (some table12) 100 = some r ∧
      r.size = table12.size ∧ (∀ k v, mapsTo r k v ↔ mapsTo table12 k v) ∧
      countTomb r.meta = 0 ∧ (∃ e, capacity r = 2 ^ e) ∧
      100 % U64 ≤ capacity r ∧
      (∀ p, (∃ e2, p = 2 ^ e2) → 100 % U64 ≤ p → capacity r ≤ p)) ∧
    (capacity table12 < 100 % U64 → 2 ^ 63 < 100 % U64 →
      hash_reserve hash__seed 8 (some table12) 100 = none ∧
      ∀ fuel, trueCapLoop (100 % U64) fuel 1 = none)) := by
  have hwf : WF hash__seed table12 :=
    (run_sim (show run hash__seed 8 ops12 = some (some table12) by decide)).1
  exact ⟨hwf, C9_reserve_semantics hwf 100⟩

/-- C10, confirmed: deleting a present key with the cascade flag unset
touches nothing but the matched metadata byte (now `HASH__TOMB`) and the
size field: the keys array, the values array (including the deleted slot),
the value width, the capacity, and every other metadata byte are exactly
those of the original table. -/
theorem C10_del_frame {V : Type} [Inhabited V] {seed : Nat} {t : HTable V}
    (hwf : WF seed t) {key i : Nat} (hi : i < capacity t)
    (hfull : hash_is_full (t.meta.getD i 0) = true)
    (hkey : t.keys.getD i 0 = key % U64) :
    ∃ t2, hash_delT seed t key false = some (true, t2) ∧
      t2.meta = t.meta.set i HASH__TOMB ∧
      t2.keys = t.keys ∧ t2.vals = t.vals ∧
      t2.size = t.size - 1 ∧ t2.val_size = t.val_size ∧
      capacity t2 = capacity t ∧
      (∀ j, j < capacity t → j ≠ i → t2.meta.getD j 0 = t.meta.getD j 0) := by
  refine ⟨_, delT_hit hwf hi hfull hkey false, rfl, rfl, rfl, rfl, rfl,
    ?_, ?_⟩
  · show (t.meta.set i HASH__TOMB).length = t.meta.length
    rw [List.length_set]
  · intro j hj hne
    show (t.meta.set i HASH__TOMB).getD j 0 = t.meta.getD j 0
    exact getD_set_ne _ _ (fun hh => hne hh.symm)

/-- C10, witness for `C10_del_frame`: deleting key 5 (slot 18) from the
twelve-key scenario table. -/
theorem C10_del_frame_witness :
    WF hash__seed table12 ∧ 18 < capacity table12 ∧
    hash_is_full (table12.meta.getD 18 0) = true ∧
    table12.keys.getD 18 0 = 5 % U64 ∧
    (∃ t2, hash_delT hash__seed table12 5 false = some (true, t2) ∧
      t2.meta = table12.meta.set 18 HASH__TOMB ∧
      t2.keys = table12.keys ∧ t2.vals = table12.vals ∧
      t2.size = table12.size - 1 ∧ t2.val_size = table12.val_size ∧
      capacity t2 = capacity table12 ∧
      (∀ j, j < capacity table12 → j ≠ 18 →
        t2.meta.getD j 0 = table12.meta.getD j 0)) := by
  have hwf : WF hash__seed table12 :=
    (run_sim (show run hash__seed 8 ops12 = some (some table12) by decide)).1
  exact ⟨hwf, by decide, by decide, by decide,
    C10_del_frame hwf (by decide) (by decide) (by decide)⟩

end Chibi
